import Mathlib

/-!
Verification of the MithrilSync flatten/rebuild/diff engine (src/MithrilSync.js).

The JavaScript value universe is shallowly embedded as `JVal`: plain objects
are insertion-ordered association lists of string-keyed fields, arrays are
lists (with an explicit `vhole` constructor standing for the absent elements
that `delete arr[i]` and out-of-order index assignment produce), and the
terminal scalars are integers, strings, booleans, `null` and `undefined`.
Scope of the model: `Map`/`Set` containers, floating point numbers,
prototype-chain property names (such as `toString` or `length`) and array
expando (non-index string) properties are outside the model; every claim
below is about the object/array/scalar fragment. JavaScript reference
aliasing is modelled by value semantics (the source deep-clones at every
relevant boundary), and operations that throw a `TypeError` in the source's
strict-mode methods are modelled in the `Except String` monad.
-/

namespace MithrilSync

/-- Embedded JavaScript values: the object/array/scalar fragment. -/
inductive JVal where
  | vstr : String → JVal
  | vint : Int → JVal
  | vbool : Bool → JVal
  | vnull : JVal
  | vundef : JVal
  | vhole : JVal
  | vobj : List (String × JVal) → JVal
  | varr : List JVal → JVal

open JVal

mutual

/-- Structural size of a value, used as a termination measure. -/
def jsize : JVal → Nat
  | .vobj fields => 1 + jsizeF fields
  | .varr elems => 1 + jsizeL elems
  | _ => 1

/-- Size of an object field list. -/
def jsizeF : List (String × JVal) → Nat
  | [] => 0
  | kv :: rest => 1 + jsize kv.2 + jsizeF rest

/-- Size of an array element list. -/
def jsizeL : List JVal → Nat
  | [] => 0
  | v :: rest => 1 + jsize v + jsizeL rest

end

/-- One structural step of a path: an object field name or an array index.
In `flatten`, object keys enter paths as strings and array positions as
numbers, so the two are distinguishable (the source tests
`typeof path[i+1] === 'number'`). -/
inductive Step where
  | fld : String → Step
  | idx : Nat → Step
deriving DecidableEq

/-- Decimal digit character. -/
def digitChar (d : Nat) : Char := Char.ofNat (48 + d)

/-- Decimal digits with explicit fuel (any fuel above the number is
enough, see `natDigitsAux_fuel`). -/
def natDigitsAux : Nat → Nat → List Char
  | 0, _ => []
  | fuel + 1, n => if n < 10 then [digitChar n] else natDigitsAux fuel (n / 10) ++ [digitChar (n % 10)]

/-- Decimal digits of a natural number, most significant first. -/
def natDigits (n : Nat) : List Char := natDigitsAux (n + 1) n

/-- JavaScript `String(n)` for a non-negative integer index. -/
def natToString (n : Nat) : String := String.mk (natDigits n)

/-- Accumulating decimal parser over characters. -/
def digAux : List Char → Nat → Option Nat
  | [], acc => some acc
  | c :: rest, acc =>
      if 48 ≤ c.toNat && c.toNat ≤ 57 then digAux rest (acc * 10 + (c.toNat - 48))
      else none

/-- Parse a non-empty all-digit character list as a natural number. -/
def digitsToNat : List Char → Option Nat
  | [] => none
  | cs => digAux cs 0

/-- String form of a step, as produced by `path.join('.')` / `String(key)`. -/
def stepStr : Step → String
  | .fld s => s
  | .idx n => natToString n

/-- Model of JavaScript `array.join('.')` for a list of strings. -/
def dotJoin : List String → String
  | [] => ""
  | [s] => s
  | s :: rest => s ++ "." ++ dotJoin rest

/-- The dotPath encoding of a structural path (`path.join('.')`). -/
def dotPathOf (p : List Step) : String := dotJoin (p.map stepStr)

/-- JavaScript `typeof`, restricted to the modelled fragment
(`typeof null` is `"object"`; a hole reads back as `undefined`). -/
def jsTypeof : JVal → String
  | .vstr _ => "string"
  | .vint _ => "number"
  | .vbool _ => "boolean"
  | .vnull => "object"
  | .vundef => "undefined"
  | .vhole => "undefined"
  | .vobj _ => "object"
  | .varr _ => "object"

/-- A flattened entry record. `kind` is optional because `updateEntry`
pushes records without a `kind` property. -/
structure Entry where
  path : List Step
  dotPath : String
  value : JVal
  kind : Option String

/-- Whether a value is a container in the modelled fragment. -/
def isCont : JVal → Bool
  | .vobj _ => true
  | .varr _ => true
  | _ => false

/-- Whether a value is the array-hole marker. -/
def isHole : JVal → Bool
  | .vhole => true
  | _ => false

/-- Size of one work-list frame of the flatten loop. -/
def frameSize (f : JVal × List Step) : Nat := jsize f.1

/-- Size of the whole flatten work list. -/
def stackSize (l : List (JVal × List Step)) : Nat := (l.map frameSize).sum

theorem sum_jsize_le_jsizeF (l : List (String × JVal)) :
    ((l.map (fun kv => jsize kv.2)).sum) ≤ jsizeF l := by
  induction l with
  | nil => simp [jsizeF]
  | cons kv rest ih => simp [jsizeF]; omega

theorem sum_jsize_le_jsizeL (l : List JVal) :
    ((l.map jsize).sum) ≤ jsizeL l := by
  induction l with
  | nil => simp [jsizeL]
  | cons v rest ih => simp [jsizeL]; omega

theorem jsize_pos (v : JVal) : 1 ≤ jsize v := by
  cases v <;> simp [jsize]

theorem stackSize_obj_children_lt (fields : List (String × JVal)) (p : List Step)
    (rest : List (JVal × List Step)) :
    stackSize ((fields.map (fun kv => (kv.2, p ++ [Step.fld kv.1]))).reverse ++ rest)
      < stackSize ((vobj fields, p) :: rest) := by
  have h1 : stackSize ((fields.map (fun kv => (kv.2, p ++ [Step.fld kv.1]))).reverse ++ rest)
      = ((fields.map (fun kv => jsize kv.2)).sum) + stackSize rest := by
    simp [stackSize, frameSize, List.sum_reverse, Function.comp_def]
  have h2 := sum_jsize_le_jsizeF fields
  simp only [stackSize, List.map_cons, List.sum_cons, frameSize] at *
  simp only [jsize] at *
  omega

theorem stackSize_arr_children_lt (elems : List JVal) (p : List Step)
    (rest : List (JVal × List Step)) :
    stackSize (((elems.enum.filter (fun ei => !isHole ei.2)).map
        (fun ei => (ei.2, p ++ [Step.idx ei.1]))).reverse ++ rest)
      < stackSize ((varr elems, p) :: rest) := by
  have h1 : stackSize (((elems.enum.filter (fun ei => !isHole ei.2)).map
        (fun ei => (ei.2, p ++ [Step.idx ei.1]))).reverse ++ rest)
      = (((elems.enum.filter (fun ei => !isHole ei.2)).map (fun ei => jsize ei.2)).sum)
          + stackSize rest := by
    simp only [stackSize, List.map_append, List.sum_append, List.map_reverse,
      List.sum_reverse, List.map_map]
    rfl
  have h2 : (((elems.enum.filter (fun ei => !isHole ei.2)).map (fun ei => jsize ei.2)).sum)
      ≤ ((elems.enum.map (fun ei => jsize ei.2)).sum) := by
    apply List.Sublist.sum_le_sum
    · exact List.Sublist.map _ (List.filter_sublist _)
    · intro x _; positivity
  have h3 : ((elems.enum.map (fun ei => jsize ei.2)).sum) = ((elems.map jsize).sum) := by
    rw [show (fun ei : Nat × JVal => jsize ei.2) = (jsize ∘ Prod.snd) from rfl]
    rw [← List.map_map jsize Prod.snd, List.enum_map_snd]
  have h4 := sum_jsize_le_jsizeL elems
  simp only [stackSize, List.map_cons, List.sum_cons, frameSize] at *
  simp only [jsize] at *
  omega

theorem stackSize_tail_lt (v : JVal) (p : List Step) (rest : List (JVal × List Step)) :
    stackSize rest < stackSize ((v, p) :: rest) := by
  simp only [stackSize, List.map_cons, List.sum_cons, frameSize]
  have := jsize_pos v
  omega

/-- The `flatten` work loop (`while (stack.length) ... stack.pop()`): the
head of the list is the top of the stack, so pushing a container's children
in iteration order puts them on the work list reversed. Array traversal
(`current.forEach`) skips holes, like the source's `forEach`. Only terminal
(non-container) values produce entries. -/
def flattenAux : List (JVal × List Step) → List Entry
  | [] => []
  | (v, p) :: rest =>
    match v with
    | .vobj fields =>
        flattenAux ((fields.map (fun kv => (kv.2, p ++ [Step.fld kv.1]))).reverse ++ rest)
    | .varr elems =>
        flattenAux (((elems.enum.filter (fun ei => !isHole ei.2)).map
          (fun ei => (ei.2, p ++ [Step.idx ei.1]))).reverse ++ rest)
    | v => ⟨p, dotPathOf p, v, some (jsTypeof v)⟩ :: flattenAux rest
termination_by l => stackSize l
decreasing_by
  · exact stackSize_obj_children_lt fields p rest
  · exact stackSize_arr_children_lt elems p rest
  · exact stackSize_tail_lt _ p rest

/-- `MithrilSync.flatten` (src/MithrilSync.js lines 8-38), leaf-only variant. -/
def flatten (v : JVal) : List Entry := flattenAux [(v, [])]

/-- Whether an association list of object fields has a binding for `k`
(JavaScript `key in obj`, own properties; prototype names are out of scope). -/
def assocHas (l : List (String × JVal)) (k : String) : Bool :=
  l.any (fun kv => kv.1 == k)

/-- Look up a field binding. -/
def assocGet (l : List (String × JVal)) (k : String) : Option JVal :=
  (l.find? (fun kv => kv.1 == k)).map Prod.snd

/-- JavaScript property assignment on an object: an existing key keeps its
insertion position and gets the new value, a new key is appended. -/
def assocSet (l : List (String × JVal)) (k : String) (v : JVal) : List (String × JVal) :=
  if assocHas l k then l.map (fun kv => if kv.1 == k then (k, v) else kv) else l ++ [(k, v)]

/-- JavaScript `delete obj[k]`. -/
def assocRemove (l : List (String × JVal)) (k : String) : List (String × JVal) :=
  l.filter (fun kv => kv.1 != k)

/-- JavaScript index assignment on an array: in-range indices are
overwritten, assignment past the end pads the gap with holes. -/
def setIdx (l : List JVal) (i : Nat) (v : JVal) : List JVal :=
  if i < l.length then l.set i v
  else l ++ List.replicate (i - l.length) JVal.vhole ++ [v]

/-- JavaScript `key in ref` for a structural step, on a container
(a hole is not `in` its array; array non-index properties are out of scope,
modelled as absent). -/
def hasKeyB : JVal → Step → Bool
  | .vobj fs, k => assocHas fs (stepStr k)
  | .varr es, .idx i =>
      (match es.get? i with
       | some .vhole => false
       | some _ => true
       | none => false)
  | .varr _, .fld _ => false
  | _, _ => false

/-- JavaScript `key in ref`: throws a `TypeError` when `ref` is not an
object (the source's class methods run in strict mode). -/
def hasKeyE (v : JVal) (k : Step) : Except String Bool :=
  if isCont v then .ok (hasKeyB v k) else .error "in operator on a non-object"

/-- JavaScript property read `ref[key]` on a container (absent keys and
holes read as `undefined`). -/
def getKeyT : JVal → Step → JVal
  | .vobj fs, k => (assocGet fs (stepStr k)).getD .vundef
  | .varr es, .idx i =>
      (match es.get? i with
       | some .vhole => .vundef
       | some w => w
       | none => .vundef)
  | _, _ => vundef

/-- JavaScript property write `ref[key] = w` for a structural step
(a numeric key on an object becomes the string key, as in `obj[0] = v`;
writes to primitives throw in strict mode; array expando properties are
out of the model). -/
def setKey (v : JVal) (k : Step) (w : JVal) : Except String JVal :=
  match v, k with
  | .vobj fs, k => .ok (.vobj (assocSet fs (stepStr k) w))
  | .varr es, .idx i => .ok (.varr (setIdx es i w))
  | .varr _, .fld _ => .error "array expando property not modelled"
  | _, _ => .error "cannot create a property on a primitive"

/-- The container `rebuild` creates for a missing intermediate key:
`typeof path[i+1] === 'number' ? [] : ` an empty object. -/
def freshFor : List Step → JVal
  | .idx _ :: _ => .varr []
  | _ => .vobj []

/-- The inner loop of `rebuild` for one entry: walk/create intermediate
containers along `path` and set the leaf at the final step. An empty path
leaves the accumulator unchanged (the `for` loop body never runs). -/
def setPath (t : JVal) (path : List Step) (v : JVal) : Except String JVal :=
  match path with
  | [] => .ok t
  | [k] => setKey t k v
  | k :: rest => do
      let hk ← hasKeyE t k
      let base ← if hk then pure t else setKey t k (freshFor rest)
      let child2 ← setPath (getKeyT base k) rest v
      setKey base k child2

/-- `MithrilSync.rebuild` (src/MithrilSync.js lines 40-55): fold the
entries, in order, into an initially empty plain object. -/
def rebuild (entries : List Entry) : Except String JVal :=
  entries.foldlM (fun t e => setPath t e.path e.value) (.vobj [])

mutual

/-- JavaScript `String(value)` on the modelled fragment
(arrays join their elements with commas, nullish elements joining as
empty strings; plain objects print as `[object Object]`). -/
def jsToString : JVal → String
  | .varr es => jsArrJoin es
  | .vobj _ => "[object Object]"
  | .vstr s => s
  | .vint n => toString n
  | .vbool b => cond b "true" "false"
  | .vnull => "null"
  | .vundef => "undefined"
  | .vhole => "undefined"

/-- Array `join(',')` used by `String(array)`. -/
def jsArrJoin : List JVal → String
  | [] => ""
  | [v] => jsArrElem v
  | v :: rest => jsArrElem v ++ "," ++ jsArrJoin rest

/-- One array element under `join`: nullish elements become empty. -/
def jsArrElem : JVal → String
  | .vnull => ""
  | .vundef => ""
  | .vhole => ""
  | v => jsToString v

end

/-- JavaScript whitespace recognised by `trim` and `ToNumber` (the common
subset of the spec's WhiteSpace and LineTerminator sets). -/
def isWsChar (c : Char) : Bool :=
  c = ' ' || c = '\t' || c = '\n' || c = '\r'

/-- Trim leading and trailing whitespace from a character list. -/
def trimChars (cs : List Char) : List Char :=
  ((cs.dropWhile isWsChar).reverse.dropWhile isWsChar).reverse

/-- Decimal digit character test. -/
def isDigitChar (c : Char) : Bool := 48 ≤ c.toNat && c.toNat ≤ 57

/-- Value of a decimal digit list (most significant first), with an
accumulator; defined on lists of digit characters. -/
def digitsValAux : List Char → Nat → Nat
  | [], acc => acc
  | c :: rest, acc => digitsValAux rest (acc * 10 + (c.toNat - 48))

/-- Digit value of a character in the given radix (0-9, a-z, A-Z),
rejecting characters at or above the radix. -/
def radixDigitVal (radix : Nat) (c : Char) : Option Nat :=
  let d :=
    if 48 ≤ c.toNat && c.toNat ≤ 57 then some (c.toNat - 48)
    else if 97 ≤ c.toNat && c.toNat ≤ 122 then some (c.toNat - 87)
    else if 65 ≤ c.toNat && c.toNat ≤ 90 then some (c.toNat - 55)
    else none
  match d with
  | some v => if v < radix then some v else none
  | none => none

/-- Accumulating parser for a digit string in the given radix. -/
def radixAux (radix : Nat) : List Char → Nat → Option Nat
  | [], acc => some acc
  | c :: rest, acc =>
      match radixDigitVal radix c with
      | some d => radixAux radix rest (acc * radix + d)
      | none => none

/-- Parse a non-empty digit string in the given radix (the digit strings
of the `0x`/`0o`/`0b` non-decimal integer literals of `ToNumber`). -/
def parseRadix (radix : Nat) : List Char → Option Nat
  | [] => none
  | cs => radixAux radix cs 0

/-- A non-empty all-decimal-digit exponent digit string. -/
def expDigits (cs : List Char) : Option Nat :=
  if cs.isEmpty then none
  else if cs.all isDigitChar then some (digitsValAux cs 0) else none

/-- The optional `ExponentPart` of a decimal literal: nothing (exponent 0)
or `e`/`E` followed by an optionally signed digit string, consuming the
whole remaining input. -/
def parseExpPart : List Char → Option Int
  | [] => some 0
  | c :: rest =>
      if c = 'e' || c = 'E' then
        match rest with
        | '+' :: ds => (expDigits ds).map (fun n => (n : Int))
        | '-' :: ds => (expDigits ds).map (fun n => -(n : Int))
        | ds => (expDigits ds).map (fun n => (n : Int))
      else none

/-- The `StrUnsignedDecimalLiteral` forms `DecimalDigits . DecimalDigits?
ExponentPart?`, `. DecimalDigits ExponentPart?` and `DecimalDigits
ExponentPart?`, returned as (mantissa digits value, number of fractional
digits, exponent): the literal's mathematical value is
mantissa times ten to the (exponent minus fractional-digit count).
`Infinity` carries no integer value and is left to fail here, which makes
the integer comparisons below false, exactly as they are in JavaScript. -/
def parseUnsignedDec (cs : List Char) : Option (Nat × Nat × Int) :=
  let (ip, rest1) := cs.span isDigitChar
  match rest1 with
  | '.' :: rest2 =>
      let (fp, rest3) := rest2.span isDigitChar
      if ip.isEmpty && fp.isEmpty then none
      else (parseExpPart rest3).map (fun e => (digitsValAux (ip ++ fp) 0, fp.length, e))
  | rest =>
      if ip.isEmpty then none
      else (parseExpPart rest).map (fun e => (digitsValAux ip 0, 0, e))

/-- The integer value, if any, of a signed decimal scientific literal
with mantissa `M`, `f` fractional digits and exponent `e`: the value
`M * 10 ^ (e - f)` when that is an integer, nothing otherwise (a
non-integer number equals no modelled `vint`, so the comparisons below
are false for it, as in JavaScript). -/
def sciToInt (sign : Int) (M : Nat) (f : Nat) (e : Int) : Option Int :=
  let d : Int := e - (f : Int)
  if 0 ≤ d then some (sign * ((M * 10 ^ d.toNat : Nat) : Int))
  else if M % 10 ^ (-d).toNat = 0 then some (sign * ((M / 10 ^ (-d).toNat : Nat) : Int))
  else none

/-- A signed decimal literal's integer value, if it has one. -/
def decToInt (sign : Int) (cs : List Char) : Option Int :=
  (parseUnsignedDec cs).bind (fun t => sciToInt sign t.1 t.2.1 t.2.2)

/-- JavaScript `ToNumber` on strings, restricted to its integer-valued
outcomes: trim whitespace (empty converts to `0`), then read a
`StrNumericLiteral` — a hex/octal/binary `0x`/`0o`/`0b` literal (unsigned)
or an optionally signed decimal literal with optional fraction and
exponent. `some n` means the string converts to the integer `n` (`"1e2"`
to `100`, `"1.0"` to `1`, `"0x10"` to `16`); `none` covers `NaN`,
`Infinity` and non-integer values alike, all of which compare false
against every modelled integer, exactly as in JavaScript. Double
rounding of astronomically large literals is outside the modelled
safe-integer fragment. -/
def numParse (s : String) : Option Int :=
  match trimChars s.data with
  | [] => some 0
  | '0' :: 'x' :: rest => (parseRadix 16 rest).map (fun n => (n : Int))
  | '0' :: 'X' :: rest => (parseRadix 16 rest).map (fun n => (n : Int))
  | '0' :: 'o' :: rest => (parseRadix 8 rest).map (fun n => (n : Int))
  | '0' :: 'O' :: rest => (parseRadix 8 rest).map (fun n => (n : Int))
  | '0' :: 'b' :: rest => (parseRadix 2 rest).map (fun n => (n : Int))
  | '0' :: 'B' :: rest => (parseRadix 2 rest).map (fun n => (n : Int))
  | '+' :: rest => decToInt 1 rest
  | '-' :: rest => decToInt (-1) rest
  | cs => decToInt 1 cs

/-- JavaScript loose equality `==` between two non-container values. -/
def loosePrim (a b : JVal) : Bool :=
  match a, b with
  | .vint x, .vint y => x == y
  | .vstr x, .vstr y => x == y
  | .vbool x, .vbool y => x == y
  | .vnull, .vnull => true
  | .vundef, .vundef => true
  | .vnull, .vundef => true
  | .vundef, .vnull => true
  | .vhole, .vhole => true
  | .vhole, .vundef => true
  | .vundef, .vhole => true
  | .vhole, .vnull => true
  | .vnull, .vhole => true
  | .vint x, .vstr s => (match numParse s with | some y => x == y | none => false)
  | .vstr s, .vint y => (match numParse s with | some x => x == y | none => false)
  | .vbool b, .vint y => (cond b (1 : Int) 0) == y
  | .vint x, .vbool b => x == (cond b (1 : Int) 0)
  | .vbool b, .vstr s => (match numParse s with | some y => (cond b (1 : Int) 0) == y | none => false)
  | .vstr s, .vbool b => (match numParse s with | some x => x == (cond b (1 : Int) 0) | none => false)
  | _, _ => false

/-- JavaScript loose equality `==` on the modelled fragment: two container
operands compare by reference, and two independently flattened snapshots
are never the same reference, so that case is `false`; a container against
a string/number/boolean coerces through `ToPrimitive` (its string form);
a container never equals `null`/`undefined`. -/
def looseEq (a b : JVal) : Bool :=
  match a, b with
  | .vobj _, .vobj _ => false
  | .vobj _, .varr _ => false
  | .varr _, .vobj _ => false
  | .varr _, .varr _ => false
  | .vobj _, .vnull => false
  | .vobj _, .vundef => false
  | .varr _, .vnull => false
  | .varr _, .vundef => false
  | .vnull, .vobj _ => false
  | .vundef, .vobj _ => false
  | .vnull, .varr _ => false
  | .vundef, .varr _ => false
  | .vobj fs, p => loosePrim (.vstr (jsToString (.vobj fs))) p
  | .varr es, p => loosePrim (.vstr (jsToString (.varr es))) p
  | p, .vobj fs => loosePrim p (.vstr (jsToString (.vobj fs)))
  | p, .varr es => loosePrim p (.vstr (jsToString (.varr es)))
  | a, b => loosePrim a b

/-- JavaScript strict equality `===` on the modelled fragment: scalars
compare by type and value; container operands compare by reference, and
values reached through two separate flattening passes are distinct
references, so the container cases are modelled as `false`. -/
def strictEq (a b : JVal) : Bool :=
  match a, b with
  | .vint x, .vint y => x == y
  | .vstr x, .vstr y => x == y
  | .vbool x, .vbool y => x == y
  | .vnull, .vnull => true
  | .vundef, .vundef => true
  | .vhole, .vhole => true
  | .vhole, .vundef => true
  | .vundef, .vhole => true
  | _, _ => false

/-- Escape one character for a JSON string literal (control characters
other than the common escapes are out of scope). -/
def jsonEscapeChar (c : Char) : String :=
  if c = '"' then "\\\""
  else if c = '\\' then "\\\\"
  else if c = '\n' then "\\n"
  else if c = '\t' then "\\t"
  else if c = '\r' then "\\r"
  else String.singleton c

/-- JSON string literal for `s`. -/
def jsonQuote (s : String) : String :=
  "\"" ++ String.join (s.data.map jsonEscapeChar) ++ "\""

/-- Comma-join used by the JSON printer. -/
def commaJoin : List String → String
  | [] => ""
  | [s] => s
  | s :: rest => s ++ "," ++ commaJoin rest

mutual

/-- JavaScript `JSON.stringify` on the modelled fragment: `undefined` at
the top level yields no string at all (the comparison
`JSON.stringify(a) !== JSON.stringify(b)` then compares the absent
values), `undefined` and holes inside arrays print as `null`, and object
fields whose value does not serialize are omitted. -/
def jsonStringify : JVal → Option String
  | .vundef => none
  | .vhole => none
  | .vnull => some "null"
  | .vint n => some (toString n)
  | .vbool b => some (cond b "true" "false")
  | .vstr s => some (jsonQuote s)
  | .varr es => some ("[" ++ commaJoin (jsonArrItems es) ++ "]")
  | .vobj fs => some ("\x7b" ++ commaJoin (jsonObjItems fs) ++ "\x7d")

/-- Array items under `JSON.stringify` (unserializable items as null). -/
def jsonArrItems : List JVal → List String
  | [] => []
  | v :: rest => ((jsonStringify v).getD "null") :: jsonArrItems rest

/-- Object items under `JSON.stringify` (unserializable fields omitted). -/
def jsonObjItems : List (String × JVal) → List String
  | [] => []
  | kv :: rest =>
      match jsonStringify kv.2 with
      | some s => (jsonQuote kv.1 ++ ":" ++ s) :: jsonObjItems rest
      | none => jsonObjItems rest

end

/-- Options accepted by `watch`. -/
structure WatchOptions where
  deepCompare : Bool := false
  strictTypes : Bool := false

/-- The comparison `watch` applies to two values present at the same
dotPath: canonical-serialization inequality under `deepCompare`, strict
inequality under `strictTypes`, coercing inequality otherwise. -/
def valueDiffers (options : WatchOptions) (ov nv : JVal) : Bool :=
  if options.deepCompare then jsonStringify ov != jsonStringify nv
  else if options.strictTypes then !(strictEq ov nv) else !(looseEq ov nv)

/-- The change kinds produced by `watch`. -/
inductive ChangeType where
  | added
  | removed
  | modified
deriving DecidableEq

/-- A change record; the optional fields model properties a JavaScript
change object may lack. -/
structure Change where
  type : ChangeType
  path : String
  value : Option JVal := none
  oldValue : Option JVal := none
  newValue : Option JVal := none

/-- `Object.fromEntries(entries.map(({dotPath, value}) => [dotPath, value]))`:
the first occurrence of a key fixes its position, the last fixes its value. -/
def toMap (entries : List Entry) : List (String × JVal) :=
  entries.foldl (fun m e => assocSet m e.dotPath e.value) []

/-- Iteration order of `new Set([...a, ...b])`: first occurrences kept. -/
def dedupFirst (l : List String) : List String :=
  l.foldl (fun acc k => if k ∈ acc then acc else acc ++ [k]) []

/-- `MithrilSync.watch` (src/MithrilSync.js lines 71-105). -/
def watch (oldEntries newEntries : List Entry) (options : WatchOptions) : List Change :=
  let oldMap := toMap oldEntries
  let newMap := toMap newEntries
  let allPaths := dedupFirst (oldMap.map Prod.fst ++ newMap.map Prod.fst)
  allPaths.filterMap (fun p =>
    match assocGet oldMap p, assocGet newMap p with
    | none, some nv => some { type := .added, path := p, value := some nv }
    | some ov, none => some { type := .removed, path := p, oldValue := some ov }
    | some ov, some nv =>
        if valueDiffers options ov nv then
          some { type := .modified, path := p, oldValue := some ov, newValue := some nv }
        else none
    | none, none => none)

/-- Canonical array index test: `s` addresses index `n` of an array
exactly when `s` is the decimal numeral of `n`. -/
def parseIdx (s : String) : Option Nat :=
  match digitsToNat s.data with
  | some n => if natToString n = s then some n else none
  | none => none

/-- Helper for `String.prototype.split` with a single-character separator. -/
def splitDotsAux : List Char → List Char → List String
  | [], cur => [String.mk cur.reverse]
  | c :: rest, cur =>
      if c = '.' then String.mk cur.reverse :: splitDotsAux rest []
      else splitDotsAux rest (c :: cur)

/-- JavaScript `dotPath.split('.')` (always at least one piece). -/
def keySplit (s : String) : List String := splitDotsAux s.data []

/-- JavaScript `key in ref` for a string key on a container. -/
def hasKeyStrB : JVal → String → Bool
  | .vobj fs, s => assocHas fs s
  | .varr es, s =>
      (match parseIdx s with
       | some i =>
           (match es.get? i with
            | some .vhole => false
            | some _ => true
            | none => false)
       | none => false)
  | _, _ => false

/-- JavaScript `key in ref` for a string key, throwing on non-objects. -/
def hasKeyStrE (v : JVal) (s : String) : Except String Bool :=
  if isCont v then .ok (hasKeyStrB v s) else .error "in operator on a non-object"

/-- JavaScript property read `ref[key]` for a string key on a container. -/
def getKeyStr : JVal → String → JVal
  | .vobj fs, s => (assocGet fs s).getD .vundef
  | .varr es, s =>
      (match parseIdx s with
       | some i =>
           (match es.get? i with
            | some .vhole => .vundef
            | some w => w
            | none => .vundef)
       | none => .vundef)
  | _, _ => vundef

/-- JavaScript property write `ref[key] = w` for a string key; strict-mode
writes to primitives throw, array expando properties are out of the model. -/
def setKeyStrE (v : JVal) (s : String) (w : JVal) : Except String JVal :=
  match v with
  | .vobj fs => .ok (.vobj (assocSet fs s w))
  | .varr es =>
      (match parseIdx s with
       | some i => .ok (.varr (setIdx es i w))
       | none => .error "array expando property not modelled")
  | _ => .error "cannot create a property on a primitive"

/-- JavaScript `delete ref[key]`: removes an object key; on an array it
leaves a hole with the length unchanged; deleting from a boxed primitive
is a no-op, from `null`/`undefined` a `TypeError`. -/
def removeKeyStr (v : JVal) (s : String) : Except String JVal :=
  match v with
  | .vobj fs => .ok (.vobj (assocRemove fs s))
  | .varr es =>
      (match parseIdx s with
       | some i => .ok (.varr (es.set i .vhole))
       | none => .ok (.varr es))
  | .vnull => .error "delete on null"
  | .vundef => .error "delete on undefined"
  | p => .ok p

/-- The value `applyChanges` writes: `change.value ?? change.newValue`
(an absent or nullish `value` falls back to `newValue`, an absent
`newValue` to `undefined`). -/
def changeValue (c : Change) : JVal :=
  match c.value with
  | some .vnull => c.newValue.getD .vundef
  | some .vundef => c.newValue.getD .vundef
  | none => c.newValue.getD .vundef
  | some v => v

/-- The inner loop of `applyChanges` for one change: walk the dotPath
pieces, creating a plain empty object (always an object, never an array)
for each missing intermediate key, then delete or set at the last key. -/
def applyChangesStep (t : JVal) (keys : List String) (c : Change) : Except String JVal :=
  match keys with
  | [] => .ok t
  | [k] =>
      if c.type = .removed then removeKeyStr t k else setKeyStrE t k (changeValue c)
  | k :: rest => do
      let hk ← hasKeyStrE t k
      let base ← if hk then pure t else setKeyStrE t k (.vobj [])
      let child2 ← applyChangesStep (getKeyStr base k) rest c
      setKeyStrE base k child2

/-- `MithrilSync.applyChanges` (src/MithrilSync.js lines 121-137). -/
def applyChanges (target : JVal) (changes : List Change) : Except String JVal :=
  changes.foldlM (fun t c => applyChangesStep t (keySplit c.path) c) target

/-- `MithrilSync.fromDiff` (the deep clone is value semantics here). -/
def fromDiff (base : JVal) (diff : List Change) : Except String JVal :=
  applyChanges base diff

/-- `Object.entries(value)`: fields of an object, index/value pairs of an
array with the index as a string key (holes are not own properties),
nothing for anything else. -/
def entriesOf : JVal → List (String × JVal)
  | .vobj fs => fs
  | .varr es => (es.enum.filter (fun ei => !isHole ei.2)).map (fun ei => (natToString ei.1, ei.2))
  | _ => []

/-- Total property write used by `merge` (in the merge claims the target
is always a container; a strict-mode write to a primitive would throw and
is modelled as the unchanged value, a non-index key on an array as the
unchanged array). -/
def setKeyStrT (v : JVal) (s : String) (w : JVal) : JVal :=
  match v with
  | .vobj fs => .vobj (assocSet fs s w)
  | .varr es =>
      (match parseIdx s with
       | some i => .varr (setIdx es i w)
       | none => .varr es)
  | p => p

/-- The recursion guard of `merge`:
`typeof value === 'object' && value !== null`. -/
def isObjectType : JVal → Bool
  | .vobj _ => true
  | .varr _ => true
  | _ => false

theorem map_one_add_jsize_sum (l : List JVal) :
    ((l.map (fun e => 1 + jsize e)).sum) = jsizeL l := by
  induction l with
  | nil => simp [jsizeL]
  | cons v rest ih => simp only [List.map_cons, List.sum_cons, jsizeL, ih]

theorem mapF_one_add_jsize_sum (l : List (String × JVal)) :
    ((l.map (fun kv => 1 + jsize kv.2)).sum) = jsizeF l := by
  induction l with
  | nil => simp [jsizeF]
  | cons kv rest ih => simp only [List.map_cons, List.sum_cons, jsizeF, ih]

theorem entriesOf_sum_lt (source : JVal) :
    (((entriesOf source).map (fun kv => 1 + jsize kv.2)).sum) < jsize source := by
  cases source with
  | vobj fs =>
      have h := mapF_one_add_jsize_sum fs
      simp only [entriesOf, jsize]
      omega
  | varr es =>
      have h1 : (((es.enum.filter (fun ei => !isHole ei.2)).map
          (fun ei => (natToString ei.1, ei.2))).map (fun kv => 1 + jsize kv.2)).sum
          ≤ ((es.enum.map (fun ei => 1 + jsize ei.2)).sum) := by
        rw [List.map_map]
        have hfun : ((fun kv : String × JVal => 1 + jsize kv.2) ∘
            (fun ei : Nat × JVal => (natToString ei.1, ei.2)))
            = (fun ei : Nat × JVal => 1 + jsize ei.2) := rfl
        rw [hfun]
        apply List.Sublist.sum_le_sum
        · exact List.Sublist.map _ (List.filter_sublist _)
        · intro x _; positivity
      have h2 : ((es.enum.map (fun ei => 1 + jsize ei.2)).sum)
          = ((es.map (fun e => 1 + jsize e)).sum) := by
        rw [show (fun ei : Nat × JVal => 1 + jsize ei.2) = ((fun e => 1 + jsize e) ∘ Prod.snd)
          from rfl]
        rw [← List.map_map (fun e => 1 + jsize e) Prod.snd, List.enum_map_snd]
      have h3 := map_one_add_jsize_sum es
      simp only [entriesOf, jsize]
      omega
  | vstr s => simp [entriesOf, jsize]
  | vint n => simp [entriesOf, jsize]
  | vbool b => simp [entriesOf, jsize]
  | vnull => simp [entriesOf, jsize]
  | vundef => simp [entriesOf, jsize]
  | vhole => simp [entriesOf, jsize]

mutual

/-- `MithrilSync.merge` (src/MithrilSync.js lines 57-69): for each entry
of `source`, recurse when both `target[key]` and `source[key]` pass the
`typeof === 'object' && !== null` guard (arrays pass it too), otherwise
assign `source[key]` over `target[key]`. -/
def merge (target source : JVal) : JVal :=
  mergeList target (entriesOf source)
termination_by jsize source
decreasing_by
  exact entriesOf_sum_lt source

/-- The entry fold of `merge`. -/
def mergeList : JVal → List (String × JVal) → JVal
  | t, [] => t
  | t, (k, v) :: rest =>
      let t2 :=
        if isObjectType v && isObjectType (getKeyStr t k) then
          setKeyStrT t k (merge (getKeyStr t k) v)
        else setKeyStrT t k v
      mergeList t2 rest
termination_by _ l => (l.map (fun kv => 1 + jsize kv.2)).sum
decreasing_by
  all_goals simp <;> omega

end

/-- The per-instance state of a `MithrilSync` object: the deep-cloned
`original` baseline and the working entry list (the `_watcher` timer handle
is an external resource outside the shallow embedding; the tick body it
drives is modelled by `watchTick` below). -/
structure State where
  original : JVal
  entries : List Entry

/-- The constructor: clone the input into `original` (value semantics) and
flatten it into `entries`. -/
def init (object : JVal) : State :=
  { original := object, entries := flatten object }

/-- `getOriginal()`: a deep clone of the baseline (value semantics). -/
def getOriginal (s : State) : JVal := s.original

/-- `getFlat()`: a deep clone of the working entries (value semantics). -/
def getFlat (s : State) : List Entry := s.entries

/-- `syncEntries(entries)`: replace the working list with a shallow copy. -/
def syncEntries (s : State) (entries : List Entry) : State :=
  { s with entries := entries }

/-- `removeEntry(dotPath)`: drop every entry with this dotPath. -/
def removeEntry (s : State) (dotPath : String) : State :=
  { s with entries := s.entries.filter (fun e => e.dotPath != dotPath) }

/-- The path `updateEntry` reconstructs for a fresh entry:
`dotPath.split('.').map(k => isNaN(k) ? k : +k)` (numeric pieces become
number steps; a piece JavaScript would read as a negative or non-integer
number is out of the model and stays a field name). -/
def parsePathJs (dotPath : String) : List Step :=
  (keySplit dotPath).map (fun k =>
    match numParse k with
    | some n => if n < 0 then Step.fld k else Step.idx n.toNat
    | none => Step.fld k)

/-- `updateEntry(dotPath, newValue)`: overwrite the value of the first
matching entry in place, or push a fresh entry (without a `kind`). -/
def updateEntry (s : State) (dotPath : String) (newValue : JVal) : State :=
  match s.entries.findIdx? (fun e => e.dotPath == dotPath) with
  | some i =>
      { s with entries := s.entries.mapIdx (fun j e =>
          if j = i then { e with value := newValue } else e) }
  | none =>
      { s with entries := s.entries ++
          [{ path := parsePathJs dotPath, dotPath := dotPath, value := newValue, kind := none }] }

/-- `getChanges(options)`: diff the flattening of the baseline against the
flattening of the rebuilt working entries. -/
def getChanges (s : State) (options : WatchOptions) : Except String (List Change) := do
  let r ← rebuild s.entries
  pure (watch (flatten s.original) (flatten r) options)

/-- `mergeWith(source)`: merge into a clone of the baseline and re-flatten
into the working entries; the baseline itself is left alone. -/
def mergeWith (s : State) (source : JVal) : State :=
  { s with entries := flatten (merge (getOriginal s) source) }

/-- The inverse `revertChanges` computes for one change: `added` becomes a
bare `removed`, `removed` becomes `added` carrying the old value in
`value`, `modified` swaps old and new. -/
def invertChange (c : Change) : Change :=
  match c.type with
  | .added => { type := .removed, path := c.path }
  | .removed => { type := .added, path := c.path, value := c.oldValue }
  | .modified => { type := .modified, path := c.path, oldValue := c.newValue,
                   newValue := c.oldValue }

/-- `revertChanges(diff)` (src/MithrilSync.js lines 183-200): invert the
diff, apply it to the rebuilt working structure, re-flatten. -/
def revertChanges (s : State) (diff : List Change) : Except String State := do
  let r ← rebuild s.entries
  let reverted ← applyChanges r (diff.map invertChange)
  pure { s with entries := flatten reverted }

/-- One tick of the `watchLive` polling loop (src/MithrilSync.js lines
202-214): re-flatten the rebuilt live entries, diff against the retained
snapshot; on a non-empty diff the snapshot advances and the callback fires
with the diff, otherwise nothing happens. Returns the retained snapshot
after the tick and the callback payload, if any. -/
def watchTick (entries : List Entry) (previousFlat : List Entry) (options : WatchOptions) :
    Except String (List Entry × Option (List Change)) := do
  let r ← rebuild entries
  let currentFlat := flatten r
  let changes := watch previousFlat currentFlat options
  if changes.isEmpty then pure (previousFlat, none) else pure (currentFlat, some changes)

/-- A run of the polling loop over the sequence of entry states the ticks
observe, threading the retained snapshot and collecting every callback
payload in order. -/
def watchRun (options : WatchOptions) :
    List (List Entry) → List Entry → Except String (List Entry × List (List Change))
  | [], prev => .ok (prev, [])
  | es :: rest, prev => do
      let (prev2, cb) ← watchTick es prev options
      let (final, cbs) ← watchRun options rest prev2
      pure (final, (match cb with | some ch => ch :: cbs | none => cbs))

/-- Options accepted by `find`; `target` and the fallbacks are arbitrary
values because the source type-checks them at run time. The regex engine
behind `useRegex` is not part of the model: a `find` run is parameterised
by an oracle `rtest pattern caseInsensitive input` standing for
`new RegExp(pattern, ci ? 'i' : '').test(input)`. `mutate` is modelled as
a function producing the mutated entry. -/
structure FindOptions where
  target : JVal := .vstr ""
  fallbacks : List JVal := []
  matchKeys : Bool := true
  matchValues : Bool := true
  caseInsensitive : Bool := false
  useRegex : Bool := false
  findAll : Bool := false
  mutate : Option (Entry → Entry) := none
  onlyTypes : List String := []
  returnFormat : String := "full"
  includeNull : Bool := true
  includeUndefined : Bool := true
  includeEmptyString : Bool := true

/-- One element of a `find` result list (the shape depends on
`returnFormat`; the `full` record captures key and value before `mutate`
runs and path/dotPath after). -/
inductive FindItem where
  | full : Option Step → JVal → List Step → String → FindItem
  | dotPathOnly : String → FindItem
  | entryOnly : Entry → FindItem

/-- The value `find` returns. -/
structure FindResult where
  matched : Bool
  results : List FindItem

/-- The ordered target list `find` builds: the primary target when it is a
string with non-blank trim, then every such fallback. -/
def findTargets (target : JVal) (fallbacks : List JVal) : List String :=
  (match target with
   | .vstr s => if (trimChars s.data).isEmpty then [] else [s]
   | _ => []) ++
  fallbacks.filterMap (fun t =>
    match t with
    | .vstr s => if (trimChars s.data).isEmpty then none else some s
    | _ => none)

/-- `String(key)` for the `path.at(-1)` of an entry (an empty path reads
`undefined`, which stringifies to "undefined"). -/
def keyString : Option Step → String
  | some st => stepStr st
  | none => "undefined"

/-- `String(input)` applied by `isMatch` to a non-string value. -/
def valString : JVal → String
  | .vstr s => s
  | v => jsToString v

/-- The per-target matcher `isMatch`: regex oracle in regex mode, else
exact comparison after optional case folding of both sides. -/
def isMatchStr (opts : FindOptions) (rtest : String → Bool → String → Bool)
    (search : String) (input : String) : Bool :=
  if opts.useRegex then rtest search opts.caseInsensitive input
  else (if opts.caseInsensitive then input.toLower else input)
      = (if opts.caseInsensitive then search.toLower else search)

/-- The value filters applied before matching (`onlyTypes`,
`includeNull/Undefined/EmptyString`; the filters look only at the value,
never the key). -/
def entrySkipped (opts : FindOptions) (val : JVal) : Bool :=
  (!opts.onlyTypes.isEmpty && !opts.onlyTypes.contains (jsTypeof val)) ||
  (!opts.includeNull && (match val with | .vnull => true | _ => false)) ||
  (!opts.includeUndefined && (match val with | .vundef => true | _ => false)) ||
  (!opts.includeEmptyString && (match val with | .vstr s => s = "" | _ => false))

/-- Whether one entry matches one target (key test first, value test only
when the key did not match). -/
def entryMatches (opts : FindOptions) (rtest : String → Bool → String → Bool)
    (search : String) (e : Entry) : Bool :=
  !(entrySkipped opts e.value) &&
  ((opts.matchKeys && isMatchStr opts rtest search (keyString e.path.getLast?)) ||
   (opts.matchValues && isMatchStr opts rtest search (valString e.value)))

/-- The result element pushed for a matched entry: key and value are the
pre-mutation reads, path and dotPath are read from the (possibly mutated)
entry. -/
def mkFindItem (opts : FindOptions) (key : Option Step) (val : JVal) (e2 : Entry) : FindItem :=
  if opts.returnFormat = "dotPaths" then .dotPathOnly e2.dotPath
  else if opts.returnFormat = "entriesOnly" then .entryOnly e2
  else .full key val e2.path e2.dotPath

/-- Accumulator of a `find` scan: the seen dotPaths and the results so far. -/
structure ScanSt where
  seen : List String
  results : List FindItem

/-- The inner entry loop of `find` for one target: walks the live entry
list, threads mutations back into it, and short-circuits (third component
`true`) at the first match when `findAll` is off. -/
def innerScan (opts : FindOptions) (rtest : String → Bool → String → Bool) (search : String) :
    List Entry → ScanSt → (List Entry × ScanSt × Bool)
  | [], st => ([], st, false)
  | e :: rest, st =>
      if entryMatches opts rtest search e && !(st.seen.contains e.dotPath) then
        let e2 := (match opts.mutate with | some f => f e | none => e)
        let item := mkFindItem opts e.path.getLast? e.value e2
        let st2 : ScanSt := { seen := st.seen ++ [e.dotPath], results := st.results ++ [item] }
        if opts.findAll then
          let r := innerScan opts rtest search rest st2
          (e2 :: r.1, r.2)
        else (e2 :: rest, st2, true)
      else
        let r := innerScan opts rtest search rest st
        (e :: r.1, r.2)

/-- The outer target loop of `find`: one inner scan per target, stopping
when an inner scan short-circuited. -/
def outerScan (opts : FindOptions) (rtest : String → Bool → String → Bool) :
    List String → List Entry → ScanSt → (List Entry × ScanSt × Bool)
  | [], es, st => (es, st, false)
  | t :: ts, es, st =>
      let r := innerScan opts rtest t es st
      if r.2.2 then r else outerScan opts rtest ts r.1 r.2.1

/-- `find(options)` (src/MithrilSync.js lines 226-319) over an entry list;
returns the result together with the possibly mutated entry list. -/
def find (entries : List Entry) (opts : FindOptions)
    (rtest : String → Bool → String → Bool) : FindResult × List Entry :=
  let targets := findTargets opts.target opts.fallbacks
  if targets.isEmpty then ({ matched := false, results := [] }, entries)
  else
    let r := outerScan opts rtest targets entries { seen := [], results := [] }
    if r.2.2 then ({ matched := true, results := r.2.1.results }, r.1)
    else ({ matched := !r.2.1.results.isEmpty, results := r.2.1.results }, r.1)

/-- The instance method `find`, updating the working entries through
`mutate`. -/
def findState (s : State) (opts : FindOptions)
    (rtest : String → Bool → String → Bool) : FindResult × State :=
  let r := find s.entries opts rtest
  (r.1, { s with entries := r.2 })

/-- Whether a list of object keys is duplicate-free. -/
def nodupKeys : List String → Bool
  | [] => true
  | k :: rest => !(rest.contains k) && nodupKeys rest

mutual

/-- Structural equality of values in the sense of the spec's
"structurally equal" (deep equality): objects must carry the same keys
with structurally equal values — insertion order of fields is not
observable to deep equality — arrays must agree pointwise, scalars by
kind and value. Intended for well-formed (duplicate-free) field lists. -/
def structEq : JVal → JVal → Bool
  | .vobj fs, .vobj gs => fs.length == gs.length && structEqF fs gs
  | .varr es, .varr ds => structEqL es ds
  | .vstr a, .vstr b => a == b
  | .vint a, .vint b => a == b
  | .vbool a, .vbool b => a == b
  | .vnull, .vnull => true
  | .vundef, .vundef => true
  | .vhole, .vhole => true
  | _, _ => false

/-- Field-wise inclusion of the left object in the right. -/
def structEqF : List (String × JVal) → List (String × JVal) → Bool
  | [], _ => true
  | kv :: rest, gs =>
      (match assocGet gs kv.1 with
       | some w => structEq kv.2 w
       | none => false) && structEqF rest gs

/-- Pointwise structural equality of array elements. -/
def structEqL : List JVal → List JVal → Bool
  | [], [] => true
  | a :: as2, b :: bs => structEq a b && structEqL as2 bs
  | _, _ => false

end

mutual

/-- The value class of the amended round-trip law: containers are
non-empty, object keys are duplicate-free, and there are no holes. -/
def goodVal : JVal → Bool
  | .vobj fs => !fs.isEmpty && nodupKeys (fs.map Prod.fst) && goodF fs
  | .varr es => !es.isEmpty && goodL es
  | .vhole => false
  | _ => true

/-- Goodness of every field value. -/
def goodF : List (String × JVal) → Bool
  | [] => true
  | kv :: rest => goodVal kv.2 && goodF rest

/-- Goodness of every array element. -/
def goodL : List JVal → Bool
  | [] => true
  | v :: rest => goodVal v && goodL rest

end

mutual

/-- Two values have the same shape when their container skeletons agree
exactly (same keys in the same order, same array lengths) and their
leaves — of any scalar kind — sit at the same positions. -/
def sameShape : JVal → JVal → Bool
  | .vobj fs, .vobj gs => sameShapeF fs gs
  | .varr es, .varr ds => sameShapeL es ds
  | .vobj _, _ => false
  | _, .vobj _ => false
  | .varr _, _ => false
  | _, .varr _ => false
  | _, _ => true

/-- Shape agreement of field lists. -/
def sameShapeF : List (String × JVal) → List (String × JVal) → Bool
  | [], [] => true
  | kv :: rest, lw :: rest2 => kv.1 == lw.1 && sameShape kv.2 lw.2 && sameShapeF rest rest2
  | _, _ => false

/-- Shape agreement of element lists. -/
def sameShapeL : List JVal → List JVal → Bool
  | [], [] => true
  | a :: as2, b :: bs => sameShape a b && sameShapeL as2 bs
  | _, _ => false

end

theorem flattenAux_nil : flattenAux [] = [] := by rw [flattenAux]

theorem flattenAux_cons_obj (fields : List (String × JVal)) (p : List Step)
    (rest : List (JVal × List Step)) :
    flattenAux ((vobj fields, p) :: rest)
      = flattenAux ((fields.map (fun kv => (kv.2, p ++ [Step.fld kv.1]))).reverse ++ rest) := by
  rw [flattenAux]

theorem flattenAux_cons_arr (elems : List JVal) (p : List Step)
    (rest : List (JVal × List Step)) :
    flattenAux ((varr elems, p) :: rest)
      = flattenAux (((elems.enum.filter (fun ei => !isHole ei.2)).map
          (fun ei => (ei.2, p ++ [Step.idx ei.1]))).reverse ++ rest) := by
  rw [flattenAux]

theorem flattenAux_cons_leaf (v : JVal) (hv : isCont v = false) (p : List Step)
    (rest : List (JVal × List Step)) :
    flattenAux ((v, p) :: rest)
      = ⟨p, dotPathOf p, v, some (jsTypeof v)⟩ :: flattenAux rest := by
  cases v <;> first
    | (rw [flattenAux] <;> simp)
    | (simp [isCont] at hv)

theorem flattenAux_append (s1 s2 : List (JVal × List Step)) :
    flattenAux (s1 ++ s2) = flattenAux s1 ++ flattenAux s2 := by
  have H : ∀ (n : Nat) (s1 : List (JVal × List Step)), stackSize s1 ≤ n →
      ∀ s2, flattenAux (s1 ++ s2) = flattenAux s1 ++ flattenAux s2 := by
    intro n
    induction n using Nat.strong_induction_on with
    | _ n ih =>
      intro s1 hs s2
      match s1 with
      | [] => simp [flattenAux_nil]
      | (v, p) :: rest =>
        cases v with
        | vobj fields =>
            rw [List.cons_append, flattenAux_cons_obj, flattenAux_cons_obj,
              ← List.append_assoc]
            have hlt := stackSize_obj_children_lt fields p rest
            exact ih (stackSize ((vobj fields, p) :: rest) - 1) (by omega) _ (by omega) s2
        | varr elems =>
            rw [List.cons_append, flattenAux_cons_arr, flattenAux_cons_arr,
              ← List.append_assoc]
            have hlt := stackSize_arr_children_lt elems p rest
            exact ih (stackSize ((varr elems, p) :: rest) - 1) (by omega) _ (by omega) s2
        | vstr s =>
            rw [List.cons_append, flattenAux_cons_leaf (vstr s) rfl, flattenAux_cons_leaf (vstr s) rfl]
            have hlt := stackSize_tail_lt (vstr s) p rest
            rw [ih (stackSize ((vstr s, p) :: rest) - 1) (by omega) _ (by omega) s2]
            simp
        | vint m =>
            rw [List.cons_append, flattenAux_cons_leaf (vint m) rfl, flattenAux_cons_leaf (vint m) rfl]
            have hlt := stackSize_tail_lt (vint m) p rest
            rw [ih (stackSize ((vint m, p) :: rest) - 1) (by omega) _ (by omega) s2]
            simp
        | vbool b =>
            rw [List.cons_append, flattenAux_cons_leaf (vbool b) rfl, flattenAux_cons_leaf (vbool b) rfl]
            have hlt := stackSize_tail_lt (vbool b) p rest
            rw [ih (stackSize ((vbool b, p) :: rest) - 1) (by omega) _ (by omega) s2]
            simp
        | vnull =>
            rw [List.cons_append, flattenAux_cons_leaf vnull rfl, flattenAux_cons_leaf vnull rfl]
            have hlt := stackSize_tail_lt vnull p rest
            rw [ih (stackSize ((vnull, p) :: rest) - 1) (by omega) _ (by omega) s2]
            simp
        | vundef =>
            rw [List.cons_append, flattenAux_cons_leaf vundef rfl, flattenAux_cons_leaf vundef rfl]
            have hlt := stackSize_tail_lt vundef p rest
            rw [ih (stackSize ((vundef, p) :: rest) - 1) (by omega) _ (by omega) s2]
            simp
        | vhole =>
            rw [List.cons_append, flattenAux_cons_leaf vhole rfl, flattenAux_cons_leaf vhole rfl]
            have hlt := stackSize_tail_lt vhole p rest
            rw [ih (stackSize ((vhole, p) :: rest) - 1) (by omega) _ (by omega) s2]
            simp
  exact H (stackSize s1) s1 le_rfl s2

theorem flattenAux_flatMap (l : List (JVal × List Step)) :
    flattenAux l = l.flatMap (fun f => flattenAux [f]) := by
  induction l with
  | nil => simp [flattenAux_nil]
  | cons f rest ih =>
      have : f :: rest = [f] ++ rest := rfl
      rw [this, flattenAux_append, ih]
      simp

/-- The entry fold of `rebuild`, started from an arbitrary accumulator. -/
def applyEntries (T : JVal) (es : List Entry) : Except String JVal :=
  es.foldlM (fun t e => setPath t e.path e.value) T

theorem rebuild_eq_applyEntries (entries : List Entry) :
    rebuild entries = applyEntries (vobj []) entries := rfl

/-- Total property write (the successful cases of `setKey`). -/
def setKeyT2 : JVal → Step → JVal → JVal
  | .vobj fs, k, w => .vobj (assocSet fs (stepStr k) w)
  | .varr es, .idx i, w => .varr (setIdx es i w)
  | t, _, _ => t

/-- Whether a step is of the kind the container accepts in the model
(any step on an object, an index step on an array). -/
def stepKindOK : JVal → Step → Bool
  | .vobj _, _ => true
  | .varr _, .idx _ => true
  | _, _ => false

/-- The net effect of `setPath` as a total function: walk the path,
descending into present keys and into fresh containers for absent ones,
and write the value at the end. -/
def graftT : JVal → List Step → JVal → JVal
  | _, [], w => w
  | T, [k], w => setKeyT2 T k w
  | T, k :: k2 :: rest, w =>
      setKeyT2 T k
        (graftT (if hasKeyB T k then getKeyT T k else freshFor (k2 :: rest)) (k2 :: rest) w)

/-- Resolve a path through present keys only. -/
def resolve : JVal → List Step → Option JVal
  | T, [] => some T
  | T, k :: rest => if hasKeyB T k then resolve (getKeyT T k) rest else none

/-- The location of a non-empty path is writable-and-absent: the walk
passes through containers of the right kinds, and from the first absent
key on (at the latest at the final step) nothing exists. -/
def freeAtB : JVal → List Step → Bool
  | _, [] => false
  | T, [k] => stepKindOK T k && !hasKeyB T k
  | T, k :: k2 :: rest =>
      stepKindOK T k &&
        (if hasKeyB T k then freeAtB (getKeyT T k) (k2 :: rest) else true)

/-- The walk of `setPath` stays within suitable containers (existing or
freshly created), so it cannot throw. -/
def okNavB : JVal → List Step → Bool
  | _, [] => true
  | T, [k] => stepKindOK T k
  | T, k :: k2 :: rest =>
      stepKindOK T k &&
        okNavB (if hasKeyB T k then getKeyT T k else freshFor (k2 :: rest)) (k2 :: rest)

theorem assocHas_cons (hd : String × JVal) (tl : List (String × JVal)) (k : String) :
    assocHas (hd :: tl) k = ((hd.1 == k) || assocHas tl k) := by
  simp [assocHas]

theorem assocGet_cons (hd : String × JVal) (tl : List (String × JVal)) (k : String) :
    assocGet (hd :: tl) k = if hd.1 == k then some hd.2 else assocGet tl k := by
  by_cases h : (hd.1 == k) = true <;> simp [assocGet, List.find?_cons, h]

theorem assocGet_eq_none_iff (l : List (String × JVal)) (k : String) :
    assocGet l k = none ↔ assocHas l k = false := by
  induction l with
  | nil => simp [assocGet, assocHas]
  | cons hd tl ih =>
      rw [assocGet_cons, assocHas_cons]
      by_cases h : (hd.1 == k) = true <;> simp [h, ih]

theorem assocGet_assocSet_self (l : List (String × JVal)) (k : String) (v : JVal) :
    assocGet (assocSet l k v) k = some v := by
  simp only [assocSet]
  by_cases hh : assocHas l k = true
  · simp only [hh, if_true]
    induction l with
    | nil => simp [assocHas] at hh
    | cons hd tl ih =>
        rw [assocHas_cons] at hh
        by_cases h2 : (hd.1 == k) = true
        · simp only [List.map_cons, h2, if_true]
          rw [assocGet_cons]
          simp
        · simp only [h2, Bool.false_or] at hh
          simp only [List.map_cons, h2, if_false, Bool.false_eq_true]
          rw [assocGet_cons]
          simp only [h2, if_false, Bool.false_eq_true]
          exact ih hh
  · simp only [hh, if_false, Bool.false_eq_true]
    induction l with
    | nil => simp [assocGet_cons]
    | cons hd tl ih =>
        rw [assocHas_cons] at hh
        by_cases h2 : (hd.1 == k) = true
        · simp [h2] at hh
        · simp only [h2, Bool.false_or] at hh
          simp only [List.cons_append]
          rw [assocGet_cons]
          simp only [h2, if_false, Bool.false_eq_true]
          exact ih hh

theorem assocGet_mapReplace (k k2 : String) (v : JVal) (h : k2 ≠ k)
    (l : List (String × JVal)) :
    assocGet (l.map (fun kv => if kv.1 == k then (k, v) else kv)) k2 = assocGet l k2 := by
  have hk : ¬(k = k2) := fun hc => h hc.symm
  induction l with
  | nil => simp [assocGet]
  | cons hd tl ih =>
      simp only [List.map_cons]
      by_cases h2 : (hd.1 == k) = true
      · rw [if_pos h2, assocGet_cons, assocGet_cons]
        have hd2 : hd.1 = k := by simpa using h2
        have e1 : (k == k2) = false := by simp [hk]
        have e2 : (hd.1 == k2) = false := by simp [hd2, hk]
        simp only [e1, e2, if_false, Bool.false_eq_true]
        exact ih
      · rw [if_neg h2, assocGet_cons, assocGet_cons]
        by_cases h3 : (hd.1 == k2) = true
        · simp [h3]
        · simp only [h3, if_false, Bool.false_eq_true]
          exact ih

theorem assocGet_append_single (l : List (String × JVal)) (k k2 : String) (v : JVal)
    (h : k2 ≠ k) : assocGet (l ++ [(k, v)]) k2 = assocGet l k2 := by
  induction l with
  | nil =>
      have hk : ¬(k = k2) := fun hc => h hc.symm
      simp [assocGet_cons, hk, assocGet]
  | cons hd tl ih =>
      simp only [List.cons_append]
      rw [assocGet_cons, assocGet_cons]
      by_cases h3 : (hd.1 == k2) = true
      · simp [h3]
      · simp only [h3, if_false, Bool.false_eq_true]
        exact ih

theorem assocGet_assocSet_other (l : List (String × JVal)) (k k2 : String) (v : JVal)
    (h : k2 ≠ k) : assocGet (assocSet l k v) k2 = assocGet l k2 := by
  simp only [assocSet]
  by_cases hh : assocHas l k = true
  · simp only [hh, if_true]
    exact assocGet_mapReplace k k2 v h l
  · simp only [hh, if_false, Bool.false_eq_true]
    exact assocGet_append_single l k k2 v h

theorem contains_false_not_mem {l : List String} {k : String}
    (h : l.contains k = false) : k ∉ l := by
  intro hc
  have h2 : l.elem k = true := List.elem_iff.mpr hc
  rw [show l.contains k = l.elem k from rfl, h2] at h
  cases h

theorem assocHas_iff_mem (l : List (String × JVal)) (k : String) :
    assocHas l k = true ↔ k ∈ l.map Prod.fst := by
  induction l with
  | nil => simp [assocHas]
  | cons hd tl ih =>
      rw [assocHas_cons]
      by_cases h : (hd.1 == k) = true
      · have : hd.1 = k := by simpa using h
        simp [this]
      · have : hd.1 ≠ k := by simpa using h
        simp [h, ih, this.symm, Ne.symm this]

theorem assocGet_ne_none_iff (l : List (String × JVal)) (k : String) :
    assocGet l k ≠ none ↔ k ∈ l.map Prod.fst := by
  rw [← assocHas_iff_mem]
  constructor
  · intro h
    by_contra hc
    have : assocHas l k = false := by
      cases hh : assocHas l k
      · rfl
      · exact absurd hh hc
    exact h ((assocGet_eq_none_iff l k).mpr this)
  · intro h hc
    rw [assocGet_eq_none_iff] at hc
    rw [h] at hc
    cases hc

theorem get?_set_self (l : List JVal) (i : Nat) (w : JVal) (h : i < l.length) :
    (l.set i w).get? i = some w := by
  induction l generalizing i with
  | nil => simp at h
  | cons a rest ih =>
      cases i with
      | zero => rfl
      | succ j =>
          simp only [List.set_cons_succ, List.get?_cons_succ]
          exact ih j (by simpa using h)

theorem get?_append_length (l1 : List JVal) (w : JVal) (l2 : List JVal) :
    (l1 ++ w :: l2).get? l1.length = some w := by
  induction l1 with
  | nil => rfl
  | cons a rest ih => simpa using ih

theorem set_append_length (l1 : List JVal) (a b : JVal) (l2 : List JVal) :
    (l1 ++ a :: l2).set l1.length b = l1 ++ b :: l2 := by
  induction l1 with
  | nil => rfl
  | cons c rest ih => simpa using ih

theorem setIdx_get_self (es : List JVal) (i : Nat) (w : JVal) :
    (setIdx es i w).get? i = some w := by
  unfold setIdx
  by_cases h : i < es.length
  · rw [if_pos h]
    exact get?_set_self es i w h
  · rw [if_neg h]
    have hlen : (es ++ List.replicate (i - es.length) JVal.vhole).length = i := by
      simp
      omega
    have key := get?_append_length (es ++ List.replicate (i - es.length) JVal.vhole) w []
    rw [hlen] at key
    simpa using key

theorem setIdx_setIdx_self (es : List JVal) (i : Nat) (w1 w2 : JVal) :
    setIdx (setIdx es i w1) i w2 = setIdx es i w2 := by
  unfold setIdx
  by_cases h : i < es.length
  · rw [if_pos h, if_pos (by simpa using h), if_pos h]
    exact List.set_set w1 w2 es i
  · rw [if_neg h]
    have hlen : (es ++ List.replicate (i - es.length) JVal.vhole ++ [w1]).length = i + 1 := by
      simp
      omega
    rw [if_pos (by rw [hlen]; omega), if_neg h]
    have hpre : (es ++ List.replicate (i - es.length) JVal.vhole).length = i := by
      simp
      omega
    have key := set_append_length (es ++ List.replicate (i - es.length) JVal.vhole) w1 w2 []
    rw [hpre] at key
    simpa using key

theorem assocHas_assocSet_self (l : List (String × JVal)) (k : String) (v : JVal) :
    assocHas (assocSet l k v) k = true := by
  rw [assocHas_iff_mem]
  have := assocGet_assocSet_self l k v
  exact (assocGet_ne_none_iff _ _).mp (by simp [this])

theorem assocSet_assocSet_self (l : List (String × JVal)) (k : String) (v1 v2 : JVal) :
    assocSet (assocSet l k v1) k v2 = assocSet l k v2 := by
  have h2 := assocHas_assocSet_self l k v1
  by_cases h : assocHas l k = true
  · have h1 : assocSet l k v1 = l.map (fun kv => if kv.1 == k then (k, v1) else kv) := by
      simp [assocSet, h]
    rw [h1] at h2
    simp only [assocSet, h, if_true, h1, h2, List.map_map]
    apply List.map_congr_left
    intro kv _
    by_cases hk : kv.1 = k <;> simp [hk]
  · have h1 : assocSet l k v1 = l ++ [(k, v1)] := by
      simp [assocSet, h]
    rw [h1] at h2
    have hfalse : assocHas l k = false := by
      cases hb : assocHas l k
      · rfl
      · exact absurd hb h
    have hl : l.map (fun kv => if kv.1 == k then (k, v2) else kv) = l := by
      clear h1 h2 h
      induction l with
      | nil => rfl
      | cons hd tl ih =>
          rw [assocHas_cons, Bool.or_eq_false_iff] at hfalse
          simp only [List.map_cons, hfalse.1, if_false, Bool.false_eq_true]
          rw [ih hfalse.2]
    simp only [assocSet, h, if_false, Bool.false_eq_true, h1, h2, if_true, List.map_append]
    rw [hl]
    simp

theorem setKey_eq_setKeyT2 (T : JVal) (k : Step) (w : JVal) (h : stepKindOK T k = true) :
    setKey T k w = .ok (setKeyT2 T k w) := by
  cases T <;> cases k <;> simp [stepKindOK] at h <;> rfl

theorem stepKindOK_isCont (T : JVal) (k : Step) (h : stepKindOK T k = true) :
    isCont T = true := by
  cases T <;> simp [stepKindOK] at h <;> rfl

theorem hasKeyB_stepKindOK (T : JVal) (k : Step) (h : hasKeyB T k = true) :
    stepKindOK T k = true := by
  cases T <;> cases k <;> simp [hasKeyB] at h <;> rfl

theorem isCont_not_hole (w : JVal) (h : isCont w = true) : isHole w = false := by
  cases w <;> simp [isCont] at h <;> rfl

theorem stepKindOK_setKeyT2 (T : JVal) (k : Step) (w : JVal) (k2 : Step) :
    stepKindOK (setKeyT2 T k w) k2 = stepKindOK T k2 := by
  cases T <;> cases k <;> cases k2 <;> rfl

theorem isCont_setKeyT2 (T : JVal) (k : Step) (w : JVal) :
    isCont (setKeyT2 T k w) = isCont T := by
  cases T <;> cases k <;> rfl

theorem hasKeyB_setKeyT2_self (T : JVal) (k : Step) (w : JVal) (hk : stepKindOK T k = true)
    (hw : isHole w = false) : hasKeyB (setKeyT2 T k w) k = true := by
  cases T with
  | vobj fs =>
      simp only [setKeyT2, hasKeyB]
      exact assocHas_assocSet_self fs (stepStr k) w
  | varr es =>
      cases k with
      | idx i =>
          simp only [setKeyT2, hasKeyB, setIdx_get_self]
          cases w <;> simp [isHole] at hw ⊢
      | fld s => simp [stepKindOK] at hk
  | vstr s => simp [stepKindOK] at hk
  | vint n => simp [stepKindOK] at hk
  | vbool b => simp [stepKindOK] at hk
  | vnull => simp [stepKindOK] at hk
  | vundef => simp [stepKindOK] at hk
  | vhole => simp [stepKindOK] at hk

theorem getKeyT_setKeyT2_self (T : JVal) (k : Step) (w : JVal) (hk : stepKindOK T k = true)
    (hw : isHole w = false) : getKeyT (setKeyT2 T k w) k = w := by
  cases T with
  | vobj fs =>
      simp only [setKeyT2, getKeyT]
      rw [assocGet_assocSet_self]
      rfl
  | varr es =>
      cases k with
      | idx i =>
          simp only [setKeyT2, getKeyT, setIdx_get_self]
          cases w <;> simp [isHole] at hw ⊢
      | fld s => simp [stepKindOK] at hk
  | vstr s => simp [stepKindOK] at hk
  | vint n => simp [stepKindOK] at hk
  | vbool b => simp [stepKindOK] at hk
  | vnull => simp [stepKindOK] at hk
  | vundef => simp [stepKindOK] at hk
  | vhole => simp [stepKindOK] at hk

theorem setKeyT2_setKeyT2_self (T : JVal) (k : Step) (w1 w2 : JVal) :
    setKeyT2 (setKeyT2 T k w1) k w2 = setKeyT2 T k w2 := by
  cases T with
  | vobj fs =>
      cases k <;> simp only [setKeyT2] <;> rw [assocSet_assocSet_self]
  | varr es =>
      cases k with
      | idx i => simp only [setKeyT2]; rw [setIdx_setIdx_self]
      | fld s => rfl
  | vstr s => rfl
  | vint n => rfl
  | vbool b => rfl
  | vnull => rfl
  | vundef => rfl
  | vhole => rfl

theorem isCont_freshFor (q : List Step) : isCont (freshFor q) = true := by
  cases q with
  | nil => rfl
  | cons k rest => cases k <;> rfl

theorem stepKindOK_freshFor (k : Step) (rest : List Step) :
    stepKindOK (freshFor (k :: rest)) k = true := by
  cases k <;> rfl

theorem hasKeyB_freshFor (q : List Step) (k2 : Step) : hasKeyB (freshFor q) k2 = false := by
  cases q with
  | nil => cases k2 <;> rfl
  | cons k rest => cases k <;> cases k2 <;> rfl

theorem freeAtB_fresh (q : List Step) (hq : q ≠ []) : freeAtB (freshFor q) q = true := by
  cases q with
  | nil => exact absurd rfl hq
  | cons k rest =>
      cases rest with
      | nil =>
          simp only [freeAtB, stepKindOK_freshFor, hasKeyB_freshFor, Bool.not_false,
            Bool.and_self]
      | cons k2 r =>
          simp only [freeAtB, stepKindOK_freshFor, hasKeyB_freshFor, Bool.true_and,
            if_false, Bool.false_eq_true]

theorem okNavB_fresh (q : List Step) : okNavB (freshFor q) q = true := by
  induction q with
  | nil => rfl
  | cons k rest ih =>
      cases rest with
      | nil => simp only [okNavB, stepKindOK_freshFor]
      | cons k2 r =>
          simp only [okNavB, stepKindOK_freshFor, hasKeyB_freshFor, Bool.true_and,
            if_false, Bool.false_eq_true]
          exact ih

theorem freeAtB_okNavB (p : List Step) : ∀ T, freeAtB T p = true → okNavB T p = true := by
  induction p with
  | nil => intro T _; rfl
  | cons k rest ih =>
      intro T h
      cases rest with
      | nil =>
          simp only [freeAtB, Bool.and_eq_true] at h
          simp only [okNavB, h.1]
      | cons k2 r =>
          simp only [freeAtB, Bool.and_eq_true] at h
          simp only [okNavB, h.1, Bool.true_and]
          by_cases hk : hasKeyB T k = true
          · rw [if_pos hk]
            rw [if_pos hk] at h
            exact ih _ h.2
          · rw [if_neg hk]
            exact okNavB_fresh (k2 :: r)

theorem freeAtB_extend (p : List Step) (k : Step) :
    ∀ T, freeAtB T p = true → freeAtB T (p ++ [k]) = true := by
  induction p with
  | nil => intro T h; cases h
  | cons k0 rest ih =>
      intro T h
      cases rest with
      | nil =>
          simp only [freeAtB, Bool.and_eq_true, Bool.not_eq_true'] at h
          simp only [List.cons_append, List.nil_append, freeAtB, h.1, Bool.true_and, h.2,
            if_false, Bool.false_eq_true]
      | cons k1 r =>
          simp only [freeAtB, Bool.and_eq_true] at h
          simp only [List.cons_append, freeAtB, h.1, Bool.true_and]
          by_cases hk : hasKeyB T k0 = true
          · rw [if_pos hk]
            rw [if_pos hk] at h
            have := ih _ h.2
            simpa using this
          · rw [if_neg hk]

theorem resolve_cons (T : JVal) (k : Step) (rest : List Step) :
    resolve T (k :: rest)
      = if hasKeyB T k then resolve (getKeyT T k) rest else none := rfl

theorem freeAtB_append_single (p : List Step) (k : Step) :
    ∀ (A P : JVal), resolve A p = some P → stepKindOK P k = true → hasKeyB P k = false →
    freeAtB A (p ++ [k]) = true := by
  induction p with
  | nil =>
      intro A P hres hkind hfree
      simp only [resolve, Option.some_inj] at hres
      subst hres
      simp only [List.nil_append, freeAtB, hkind, Bool.true_and, hfree, Bool.not_false]
  | cons k0 p2 ih =>
      intro A P hres hkind hfree
      rw [resolve_cons] at hres
      by_cases hk : hasKeyB A k0 = true
      · rw [if_pos hk] at hres
        have hstep := hasKeyB_stepKindOK A k0 hk
        cases p2 with
        | nil =>
            simp only [List.cons_append, List.nil_append, freeAtB, hstep, Bool.true_and,
              if_pos hk]
            exact ih _ _ hres hkind hfree
        | cons k1 r =>
            simp only [List.cons_append, freeAtB, hstep, Bool.true_and, if_pos hk]
            have := ih _ _ hres hkind hfree
            simpa using this
      · rw [if_neg hk] at hres
        cases hres

theorem freeAtB_isCont (T : JVal) (q : List Step) (hq : q ≠ []) (h : freeAtB T q = true) :
    isCont T = true := by
  cases q with
  | nil => exact absurd rfl hq
  | cons k rest =>
      cases rest with
      | nil =>
          simp only [freeAtB, Bool.and_eq_true] at h
          exact stepKindOK_isCont T k h.1
      | cons k2 r =>
          simp only [freeAtB, Bool.and_eq_true] at h
          exact stepKindOK_isCont T k h.1

theorem graftT_nil (T w : JVal) : graftT T [] w = w := rfl

theorem graftT_single (T : JVal) (k : Step) (w : JVal) :
    graftT T [k] w = setKeyT2 T k w := rfl

theorem graftT_cons2 (T : JVal) (k k2 : Step) (rest : List Step) (w : JVal) :
    graftT T (k :: k2 :: rest) w
      = setKeyT2 T k
          (graftT (if hasKeyB T k then getKeyT T k else freshFor (k2 :: rest))
            (k2 :: rest) w) := rfl

theorem isCont_graftT (T : JVal) (q : List Step) (w : JVal) (hq : q ≠ [])
    (hT : isCont T = true) : isCont (graftT T q w) = true := by
  cases q with
  | nil => exact absurd rfl hq
  | cons k rest =>
      cases rest with
      | nil => rw [graftT_single, isCont_setKeyT2]; exact hT
      | cons k2 r => rw [graftT_cons2, isCont_setKeyT2]; exact hT

theorem setPath_eq_graftT (p : List Step) (hne : p ≠ []) :
    ∀ (T v : JVal), okNavB T p = true → setPath T p v = .ok (graftT T p v) := by
  induction p with
  | nil => exact absurd rfl hne
  | cons k rest ih =>
      intro T v hnav
      cases rest with
      | nil =>
          simp only [okNavB] at hnav
          rw [setPath, setKey_eq_setKeyT2 T k v hnav, graftT_single]
      | cons k2 r =>
          simp only [okNavB, Bool.and_eq_true] at hnav
          have hcont := stepKindOK_isCont T k hnav.1
          rw [setPath, graftT_cons2]
          simp only [hasKeyE, hcont, if_true, Bind.bind, Except.bind]
          by_cases hk : hasKeyB T k = true
          · rw [if_pos hk] at hnav ⊢
            simp only [pure, Except.pure]
            rw [ih (List.cons_ne_nil _ _) (getKeyT T k) v hnav.2]
            simp only [Except.bind]
            rw [setKey_eq_setKeyT2 T k _ hnav.1]
            rw [if_pos hk]
          · rw [if_neg hk] at hnav ⊢
            rw [setKey_eq_setKeyT2 T k _ hnav.1]
            simp only [Except.bind]
            rw [getKeyT_setKeyT2_self T k _ hnav.1
              (isCont_not_hole _ (isCont_freshFor (k2 :: r)))]
            rw [ih (List.cons_ne_nil _ _) (freshFor (k2 :: r)) v hnav.2]
            simp only [Except.bind]
            rw [setKey_eq_setKeyT2 _ k _ (by rw [stepKindOK_setKeyT2]; exact hnav.1)]
            rw [setKeyT2_setKeyT2_self]
            rw [if_neg hk]
          exact fun hc => List.noConfusion hc

theorem resolve_graftT (p : List Step) :
    ∀ (T w : JVal), (freeAtB T p = true ∨ p = []) → isCont w = true →
    resolve (graftT T p w) p = some w := by
  induction p with
  | nil =>
      intro T w _ _
      rw [graftT_nil]
      rfl
  | cons k rest ih =>
      intro T w h hw
      have hfree : freeAtB T (k :: rest) = true := by
        rcases h with h | h
        · exact h
        · cases h
      cases rest with
      | nil =>
          simp only [freeAtB, Bool.and_eq_true, Bool.not_eq_true'] at hfree
          rw [graftT_single, resolve_cons,
            if_pos (hasKeyB_setKeyT2_self T k w hfree.1 (isCont_not_hole w hw)),
            getKeyT_setKeyT2_self T k w hfree.1 (isCont_not_hole w hw)]
          rfl
      | cons k2 r =>
          simp only [freeAtB, Bool.and_eq_true] at hfree
          rw [graftT_cons2]
          set child := if hasKeyB T k then getKeyT T k else freshFor (k2 :: r) with hchild
          have hchildCont : isCont child = true := by
            rw [hchild]
            by_cases hk : hasKeyB T k = true
            · rw [if_pos hk]
              rw [if_pos hk] at hfree
              exact freeAtB_isCont _ _ (List.cons_ne_nil _ _) hfree.2
            · rw [if_neg hk]
              exact isCont_freshFor _
          have hXcont : isCont (graftT child (k2 :: r) w) = true :=
            isCont_graftT child (k2 :: r) w (by simp) hchildCont
          rw [resolve_cons,
            if_pos (hasKeyB_setKeyT2_self T k _ hfree.1 (isCont_not_hole _ hXcont)),
            getKeyT_setKeyT2_self T k _ hfree.1 (isCont_not_hole _ hXcont)]
          apply ih child w _ hw
          by_cases hk : hasKeyB T k = true
          · rw [if_pos hk] at hfree
            left
            rw [hchild, if_pos hk]
            exact hfree.2
          · left
            rw [hchild, if_neg hk]
            exact freeAtB_fresh (k2 :: r) (by simp)

theorem graftT_graftT_append (p : List Step) (k : Step) :
    ∀ (T X w : JVal), (freeAtB T p = true ∨ p = []) → isCont X = true →
    graftT (graftT T p X) (p ++ [k]) w = graftT T p (setKeyT2 X k w) := by
  induction p with
  | nil =>
      intro T X w _ _
      rw [graftT_nil, graftT_nil, List.nil_append, graftT_single]
  | cons k0 rest ih =>
      intro T X w h hX
      have hfree : freeAtB T (k0 :: rest) = true := by
        rcases h with h | h
        · exact h
        · cases h
      cases rest with
      | nil =>
          simp only [freeAtB, Bool.and_eq_true, Bool.not_eq_true'] at hfree
          rw [graftT_single, List.cons_append, List.nil_append, graftT_cons2,
            if_pos (hasKeyB_setKeyT2_self T k0 X hfree.1 (isCont_not_hole X hX)),
            getKeyT_setKeyT2_self T k0 X hfree.1 (isCont_not_hole X hX),
            graftT_single, setKeyT2_setKeyT2_self, graftT_single]
      | cons k1 p2 =>
          simp only [freeAtB, Bool.and_eq_true] at hfree
          rw [graftT_cons2]
          set child := if hasKeyB T k0 then getKeyT T k0 else freshFor (k1 :: p2) with hchild
          have hchildCont : isCont child = true := by
            rw [hchild]
            by_cases hk : hasKeyB T k0 = true
            · rw [if_pos hk]
              rw [if_pos hk] at hfree
              exact freeAtB_isCont _ _ (List.cons_ne_nil _ _) hfree.2
            · rw [if_neg hk]
              exact isCont_freshFor _
          have hYcont : isCont (graftT child (k1 :: p2) X) = true :=
            isCont_graftT child (k1 :: p2) X (by simp) hchildCont
          have hfreechild : freeAtB child (k1 :: p2) = true ∨ k1 :: p2 = [] := by
            by_cases hk : hasKeyB T k0 = true
            · rw [if_pos hk] at hfree
              left
              rw [hchild, if_pos hk]
              exact hfree.2
            · left
              rw [hchild, if_neg hk]
              exact freeAtB_fresh (k1 :: p2) (by simp)
          have harm : (k0 :: k1 :: p2) ++ [k] = k0 :: k1 :: (p2 ++ [k]) := by simp
          rw [harm, graftT_cons2,
            if_pos (hasKeyB_setKeyT2_self T k0 _ hfree.1 (isCont_not_hole _ hYcont)),
            getKeyT_setKeyT2_self T k0 _ hfree.1 (isCont_not_hole _ hYcont),
            setKeyT2_setKeyT2_self]
          have := ih child X w hfreechild hX
          rw [show k1 :: (p2 ++ [k]) = (k1 :: p2) ++ [k] from by simp, this, graftT_cons2]

theorem graftT_free_append (q : List Step) (hq : q ≠ []) (p : List Step) :
    ∀ (T w : JVal), freeAtB T p = true →
    graftT T (p ++ q) w = graftT T p (graftT (freshFor q) q w) := by
  induction p with
  | nil => intro T w h; cases h
  | cons k0 rest ih =>
      intro T w h
      cases rest with
      | nil =>
          simp only [freeAtB, Bool.and_eq_true, Bool.not_eq_true'] at h
          cases q with
          | nil => exact absurd rfl hq
          | cons q0 q2 =>
              rw [List.cons_append, List.nil_append, graftT_cons2, if_neg (by rw [h.2]; simp),
                graftT_single]
      | cons k1 p2 =>
          simp only [freeAtB, Bool.and_eq_true] at h
          have harm : (k0 :: k1 :: p2) ++ q = k0 :: k1 :: (p2 ++ q) := by simp
          rw [harm, graftT_cons2, graftT_cons2]
          have harm2 : k1 :: (p2 ++ q) = (k1 :: p2) ++ q := by simp
          by_cases hk : hasKeyB T k0 = true
          · rw [if_pos hk] at h ⊢
            rw [if_pos hk]
            rw [harm2, ih (getKeyT T k0) w h.2]
          · rw [if_neg hk]
            rw [if_neg hk]
            have hfreshhead : freshFor (k1 :: (p2 ++ q)) = freshFor (k1 :: p2) := by
              cases k1 <;> rfl
            rw [hfreshhead, harm2, ih (freshFor (k1 :: p2)) w (freeAtB_fresh _ (by simp))]

mutual

/-- Relation between the value `rebuild` reconstructs and the original:
identical scalars at the leaves, arrays pointwise, and objects carrying
the original fields in reversed insertion order (the LIFO flatten order
makes `rebuild` insert siblings reversed). -/
inductive SimRev : JVal → JVal → Prop where
  | leaf : ∀ v, isCont v = false → SimRev v v
  | obj : ∀ ws fields, SimRevF ws fields.reverse → SimRev (vobj ws) (vobj fields)
  | arr : ∀ ds es, SimRevL ds es → SimRev (varr ds) (varr es)

/-- Pointwise `SimRev` on field lists with equal keys. -/
inductive SimRevF : List (String × JVal) → List (String × JVal) → Prop where
  | nil : SimRevF [] []
  | cons : ∀ (k : String) (w c : JVal) (rest1 rest2 : List (String × JVal)),
      SimRev w c → SimRevF rest1 rest2 → SimRevF ((k, w) :: rest1) ((k, c) :: rest2)

/-- Pointwise `SimRev` on element lists. -/
inductive SimRevL : List JVal → List JVal → Prop where
  | nil : SimRevL [] []
  | cons : ∀ (w c : JVal) (r1 r2 : List JVal),
      SimRev w c → SimRevL r1 r2 → SimRevL (w :: r1) (c :: r2)

end

theorem SimRevF_append {a : List (String × JVal)} :
    ∀ {b c d : List (String × JVal)}, SimRevF a b → SimRevF c d →
      SimRevF (a ++ c) (b ++ d) := by
  induction a with
  | nil =>
      intro b c d h1 h2
      cases h1
      exact h2
  | cons hd tl ih =>
      intro b c d h1 h2
      cases h1 with
      | cons k w cc r1 r2 hr hf => exact SimRevF.cons k w cc _ _ hr (ih hf h2)

theorem SimRevL_append {a : List JVal} :
    ∀ {b c d : List JVal}, SimRevL a b → SimRevL c d → SimRevL (a ++ c) (b ++ d) := by
  induction a with
  | nil =>
      intro b c d h1 h2
      cases h1
      exact h2
  | cons hd tl ih =>
      intro b c d h1 h2
      cases h1
      rename_i cc r2 hr hf
      exact SimRevL.cons hd cc _ _ hr (ih hf h2)

theorem SimRevF_length {a : List (String × JVal)} :
    ∀ {b : List (String × JVal)}, SimRevF a b → a.length = b.length := by
  induction a with
  | nil =>
      intro b h
      cases h
      rfl
  | cons hd tl ih =>
      intro b h
      cases h with
      | cons k w cc r1 r2 hr hf => simpa using ih hf

theorem SimRevL_length {a : List JVal} :
    ∀ {b : List JVal}, SimRevL a b → a.length = b.length := by
  induction a with
  | nil =>
      intro b h
      cases h
      rfl
  | cons hd tl ih =>
      intro b h
      cases h with
      | cons w cc r1 r2 hr hf => simpa using ih hf

theorem goodVal_obj (fields : List (String × JVal)) :
    goodVal (vobj fields)
      = (!fields.isEmpty && nodupKeys (fields.map Prod.fst) && goodF fields) := by
  rw [goodVal]

theorem goodVal_arr (elems : List JVal) :
    goodVal (varr elems) = (!elems.isEmpty && goodL elems) := by
  rw [goodVal]

theorem goodF_mem (fields : List (String × JVal)) (hg : goodF fields = true) :
    ∀ kv ∈ fields, goodVal kv.2 = true := by
  induction fields with
  | nil => intro kv h; cases h
  | cons hd tl ih =>
      rw [goodF] at hg
      simp only [Bool.and_eq_true] at hg
      intro kv h
      rcases List.mem_cons.mp h with h1 | h1
      · subst h1; exact hg.1
      · exact ih hg.2 kv h1

theorem goodL_mem (elems : List JVal) (hg : goodL elems = true) :
    ∀ v ∈ elems, goodVal v = true := by
  induction elems with
  | nil => intro v h; cases h
  | cons hd tl ih =>
      rw [goodL] at hg
      simp only [Bool.and_eq_true] at hg
      intro v h
      rcases List.mem_cons.mp h with h1 | h1
      · subst h1; exact hg.1
      · exact ih hg.2 v h1

theorem goodL_not_hole (elems : List JVal) (hg : goodL elems = true) :
    ∀ v ∈ elems, isHole v = false := by
  intro v hv
  have := goodL_mem elems hg v hv
  cases v <;> simp [isHole]
  simp [goodVal] at this

theorem jsize_mem_obj_lt (fields : List (String × JVal)) (kv : String × JVal)
    (h : kv ∈ fields) : jsize kv.2 < jsize (vobj fields) := by
  rw [jsize]
  have : ∀ l : List (String × JVal), kv ∈ l → jsize kv.2 < 1 + jsizeF l := by
    intro l hl
    induction l with
    | nil => cases hl
    | cons hd tl ih =>
        rw [jsizeF]
        rcases List.mem_cons.mp hl with h1 | h1
        · subst h1; omega
        · have := ih h1; omega
  exact this fields h

theorem jsize_mem_arr_lt (elems : List JVal) (v : JVal) (h : v ∈ elems) :
    jsize v < jsize (varr elems) := by
  rw [jsize]
  have : ∀ l : List JVal, v ∈ l → jsize v < 1 + jsizeL l := by
    intro l hl
    induction l with
    | nil => cases hl
    | cons hd tl ih =>
        rw [jsizeL]
        rcases List.mem_cons.mp hl with h1 | h1
        · subst h1; omega
        · have := ih h1; omega
  exact this elems h

theorem nodupKeys_iff (l : List String) : nodupKeys l = true ↔ l.Nodup := by
  induction l with
  | nil => simp [nodupKeys]
  | cons k rest ih =>
      rw [nodupKeys]
      simp only [Bool.and_eq_true, Bool.not_eq_true', List.nodup_cons]
      constructor
      · rintro ⟨h1, h2⟩
        exact ⟨contains_false_not_mem h1, ih.mp h2⟩
      · rintro ⟨h1, h2⟩
        refine ⟨?_, ih.mpr h2⟩
        cases hc : rest.contains k
        · rfl
        · exact absurd ((List.elem_iff).mp hc) h1

theorem assocHas_append (l1 l2 : List (String × JVal)) (k : String) :
    assocHas (l1 ++ l2) k = (assocHas l1 k || assocHas l2 k) := by
  simp [assocHas, List.any_append]

theorem nodup_assocGet (fields : List (String × JVal)) (k : String) (x : JVal)
    (hnd : nodupKeys (fields.map Prod.fst) = true) (hmem : (k, x) ∈ fields) :
    assocGet fields k = some x := by
  induction fields with
  | nil => cases hmem
  | cons hd tl ih =>
      simp only [List.map_cons, nodupKeys, Bool.and_eq_true] at hnd
      rw [assocGet_cons]
      rcases List.mem_cons.mp hmem with h1 | h1
      · subst h1
        simp
      · by_cases hk : hd.1 = k
        · exfalso
          subst hk
          exact contains_false_not_mem
            (by cases hc : (tl.map Prod.fst).contains hd.1
                · rfl
                · rw [hc] at hnd; simp at hnd)
            (List.mem_map.mpr ⟨(hd.1, x), h1, rfl⟩)
        · have : (hd.1 == k) = false := by simp [hk]
          simp only [this, if_false, Bool.false_eq_true]
          exact ih hnd.2 h1

theorem applyEntries_nil (T : JVal) : applyEntries T [] = .ok T := rfl

theorem applyEntries_cons (T : JVal) (e : Entry) (rest : List Entry) :
    applyEntries T (e :: rest)
      = Except.bind (setPath T e.path e.value) (fun t => applyEntries t rest) := rfl

theorem applyEntries_append (l1 l2 : List Entry) : ∀ T,
    applyEntries T (l1 ++ l2)
      = Except.bind (applyEntries T l1) (fun t => applyEntries t l2) := by
  induction l1 with
  | nil => intro T; rfl
  | cons e l ih =>
      intro T
      rw [List.cons_append, applyEntries_cons, applyEntries_cons]
      cases hsp : setPath T e.path e.value with
      | error s => rfl
      | ok t =>
          show applyEntries t (l ++ l2) = _
          rw [ih t]
          rfl

theorem flatMap_map_frames {α β : Type} (l : List α) (fn : α → β) (g : β → List Entry) :
    (l.map fn).flatMap g = l.flatMap (fun x => g (fn x)) := by
  induction l with
  | nil => rfl
  | cons a t ih => simp only [List.map_cons, List.flatMap_cons, ih]

theorem enum_filter_hole (es : List JVal) (h : ∀ v ∈ es, isHole v = false) :
    es.enum.filter (fun ei => !isHole ei.2) = es.enum := by
  apply List.filter_eq_self.mpr
  intro ei hmem
  have hm : ei.2 ∈ es := by
    rw [← List.enum_map_snd es]
    exact List.mem_map_of_mem Prod.snd hmem
  simp [h _ hm]

theorem enum_concat (es : List JVal) (c : JVal) :
    (es ++ [c]).enum = es.enum ++ [(es.length, c)] := by
  simp [List.enum_append]

theorem get?_replicate_append :
    ∀ (L : Nat) (a : JVal) (ds : List JVal), (List.replicate (L+1) a ++ ds).get? L = some a
  | 0, a, ds => rfl
  | (L+1), a, ds => by
      have := get?_replicate_append L a ds
      simpa [List.replicate_succ] using this

theorem set_replicate_append (L : Nat) (a w : JVal) (ds : List JVal) :
    (List.replicate (L+1) a ++ ds).set L w = List.replicate L a ++ w :: ds := by
  have h1 : List.replicate (L+1) a = List.replicate L a ++ [a] := List.replicate_succ' L a
  rw [h1, List.append_assoc, List.singleton_append]
  have := set_append_length (List.replicate L a) a w ds
  simpa using this

theorem hasKeyB_arr_hole (L : Nat) (ds : List JVal) :
    hasKeyB (varr (List.replicate (L+1) JVal.vhole ++ ds)) (Step.idx L) = false := by
  show (match (List.replicate (L+1) JVal.vhole ++ ds).get? L with
        | some .vhole => false
        | some _ => true
        | none => false) = false
  rw [get?_replicate_append]

theorem setKeyT2_arr_mid (L : Nat) (w : JVal) (ds : List JVal) :
    setKeyT2 (varr (List.replicate (L+1) JVal.vhole ++ ds)) (Step.idx L) w
      = varr (List.replicate L JVal.vhole ++ w :: ds) := by
  show varr (setIdx (List.replicate (L+1) JVal.vhole ++ ds) L w) = _
  rw [setIdx, if_pos (by simp; omega), set_replicate_append]

theorem setKeyT2_obj_append (ws : List (String × JVal)) (k : String) (w : JVal)
    (h : assocHas ws k = false) :
    setKeyT2 (vobj ws) (Step.fld k) w = vobj (ws ++ [(k, w)]) := by
  show vobj (assocSet ws k w) = _
  rw [assocSet, if_neg (by rw [h]; simp)]

theorem graft_fresh_fld (k : String) (w : JVal) :
    graftT (freshFor [Step.fld k]) [Step.fld k] w = vobj [(k, w)] := by
  rw [graftT_single]
  show vobj (assocSet [] k w) = _
  rw [assocSet]
  rfl

theorem graft_fresh_idx (L : Nat) (w : JVal) :
    graftT (freshFor [Step.idx L]) [Step.idx L] w
      = varr (List.replicate L JVal.vhole ++ [w]) := by
  rw [graftT_single]
  show varr (setIdx [] L w) = _
  rw [setIdx]
  simp

theorem applyEntries_flatten_leaf (u : JVal) (hu : isCont u = false) (T : JVal)
    (p : List Step) (hp : p ≠ []) (hfree : freeAtB T p = true) :
    applyEntries T (flattenAux [(u, p)]) = .ok (graftT T p u) := by
  rw [flattenAux_cons_leaf u hu, flattenAux_nil, applyEntries_cons,
    setPath_eq_graftT p hp T u (freeAtB_okNavB p T hfree)]
  rfl

theorem except_bind_ok2 {α β : Type} (x : α) (f : α → Except String β) :
    Except.bind (Except.ok x) f = f x := rfl

theorem applyEntries_flatten : ∀ (n : Nat) (v : JVal), jsize v ≤ n →
    ∀ (T : JVal) (p : List Step), goodVal v = true → p ≠ [] → freeAtB T p = true →
    ∃ w, applyEntries T (flattenAux [(v, p)]) = .ok (graftT T p w) ∧ SimRev w v := by
  intro n
  induction n using Nat.strong_induction_on with
  | _ n ih =>
    intro v hsz T p hgood hp hfree
    cases v with
    | vstr s =>
        exact ⟨vstr s, applyEntries_flatten_leaf (vstr s) rfl T p hp hfree, SimRev.leaf _ rfl⟩
    | vint a =>
        exact ⟨vint a, applyEntries_flatten_leaf (vint a) rfl T p hp hfree, SimRev.leaf _ rfl⟩
    | vbool b =>
        exact ⟨vbool b, applyEntries_flatten_leaf (vbool b) rfl T p hp hfree, SimRev.leaf _ rfl⟩
    | vnull =>
        exact ⟨vnull, applyEntries_flatten_leaf vnull rfl T p hp hfree, SimRev.leaf _ rfl⟩
    | vundef =>
        exact ⟨vundef, applyEntries_flatten_leaf vundef rfl T p hp hfree, SimRev.leaf _ rfl⟩
    | vhole =>
        rw [goodVal] at hgood
        cases hgood
    | vobj fields =>
        rw [goodVal_obj] at hgood
        simp only [Bool.and_eq_true, Bool.not_eq_true'] at hgood
        obtain ⟨⟨hne, hnd⟩, hgf⟩ := hgood
        have hrevne : fields.reverse ≠ [] := by
          cases fields
          · simp [List.isEmpty] at hne
          · simp
        obtain ⟨⟨k1, c1⟩, js1, hrev⟩ : ∃ kv js1, fields.reverse = kv :: js1 := by
          cases hr : fields.reverse with
          | nil => exact absurd hr hrevne
          | cons kv js1 => exact ⟨kv, js1, rfl⟩
        have hndrev : ((fields.reverse).map Prod.fst).Nodup := by
          rw [List.map_reverse]
          exact List.nodup_reverse.mpr ((nodupKeys_iff _).mp hnd)
        rw [hrev] at hndrev
        simp only [List.map_cons, List.nodup_cons] at hndrev
        have hsubrev : ∀ kv ∈ fields.reverse, kv ∈ fields := fun kv h => List.mem_reverse.mp h
        rw [flattenAux_cons_obj, List.append_nil, flattenAux_flatMap, ← List.map_reverse]
        simp only [flatMap_map_frames]
        rw [hrev]
        simp only [List.flatMap_cons]
        rw [applyEntries_append]
        have hmem1 : (k1, c1) ∈ fields := hsubrev _ (by rw [hrev]; simp)
        have hsz1 : jsize c1 < n :=
          lt_of_lt_of_le (jsize_mem_obj_lt fields (k1, c1) hmem1) hsz
        obtain ⟨w1, hw1eq, hw1sim⟩ := ih (jsize c1) hsz1 c1 le_rfl T (p ++ [Step.fld k1])
          (goodF_mem fields hgf (k1, c1) hmem1) (by simp)
          (freeAtB_extend p (Step.fld k1) T hfree)
        have hrew1 : graftT T (p ++ [Step.fld k1]) w1 = graftT T p (vobj [(k1, w1)]) := by
          rw [graftT_free_append [Step.fld k1] (by simp) p T w1 hfree, graft_fresh_fld]
        have LOOP : ∀ (js : List (String × JVal)), (∀ kv ∈ js, kv ∈ fields) →
            (js.map Prod.fst).Nodup →
            ∀ (ws : List (String × JVal)), (∀ kv ∈ js, assocHas ws kv.1 = false) →
            ∃ ws2, applyEntries (graftT T p (vobj ws))
                (js.flatMap (fun kv => flattenAux [(kv.2, p ++ [Step.fld kv.1])]))
              = .ok (graftT T p (vobj (ws ++ ws2))) ∧ SimRevF ws2 js := by
          intro js
          induction js with
          | nil =>
              intro _ _ ws _
              exact ⟨[], by simp [applyEntries_nil], SimRevF.nil⟩
          | cons kv js2 ihl =>
              intro hsub hnd2 ws hdisj
              obtain ⟨k, c⟩ := kv
              simp only [List.map_cons, List.nodup_cons] at hnd2
              have hmemf : (k, c) ∈ fields := hsub _ (by simp)
              have hszc : jsize c < n :=
                lt_of_lt_of_le (jsize_mem_obj_lt fields (k, c) hmemf) hsz
              have hw : assocHas ws k = false := by
                have := hdisj (k, c) (by simp)
                simpa using this
              have hres : resolve (graftT T p (vobj ws)) p = some (vobj ws) :=
                resolve_graftT p T (vobj ws) (Or.inl hfree) rfl
              have hfreec : freeAtB (graftT T p (vobj ws)) (p ++ [Step.fld k]) = true :=
                freeAtB_append_single p (Step.fld k) _ _ hres rfl hw
              obtain ⟨wc, hwceq, hwcsim⟩ := ih (jsize c) hszc c le_rfl (graftT T p (vobj ws))
                (p ++ [Step.fld k]) (goodF_mem fields hgf (k, c) hmemf) (by simp) hfreec
              have hrewc : graftT (graftT T p (vobj ws)) (p ++ [Step.fld k]) wc
                  = graftT T p (vobj (ws ++ [(k, wc)])) := by
                rw [graftT_graftT_append p (Step.fld k) T (vobj ws) wc (Or.inl hfree) rfl,
                  setKeyT2_obj_append ws k wc hw]
              obtain ⟨ws2, hws2eq, hws2sim⟩ := ihl (fun kv2 h2 => hsub kv2 (by simp [h2]))
                hnd2.2 (ws ++ [(k, wc)])
                (fun kv2 h2 => by
                  rw [assocHas_append]
                  have h1 : assocHas ws kv2.1 = false := hdisj kv2 (by simp [h2])
                  have hk2 : k ≠ kv2.1 := by
                    intro hcontra
                    exact hnd2.1 (hcontra ▸ List.mem_map_of_mem Prod.fst h2)
                  rw [h1]
                  simp [assocHas, hk2])
              refine ⟨(k, wc) :: ws2, ?_, SimRevF.cons k wc c _ _ hwcsim hws2sim⟩
              simp only [List.flatMap_cons]
              rw [applyEntries_append, hwceq, except_bind_ok2, hrewc, hws2eq,
                List.append_assoc]
              rfl
        obtain ⟨ws2, hws2eq, hws2sim⟩ := LOOP js1
          (fun kv h => hsubrev kv (by rw [hrev]; simp [h]))
          hndrev.2
          [(k1, w1)]
          (fun kv h => by
            have hk : k1 ≠ kv.1 := fun hc => hndrev.1 (hc ▸ List.mem_map_of_mem Prod.fst h)
            simp [assocHas, hk])
        refine ⟨vobj ((k1, w1) :: ws2), ?_,
          SimRev.obj _ _ (by rw [hrev]; exact SimRevF.cons k1 w1 c1 _ _ hw1sim hws2sim)⟩
        rw [hw1eq, except_bind_ok2, hrew1, hws2eq]
        rfl
    | varr elems =>
        rw [goodVal_arr] at hgood
        simp only [Bool.and_eq_true, Bool.not_eq_true'] at hgood
        obtain ⟨hne, hgl⟩ := hgood
        rw [flattenAux_cons_arr, List.append_nil,
          enum_filter_hole elems (goodL_not_hole elems hgl), flattenAux_flatMap,
          ← List.map_reverse]
        simp only [flatMap_map_frames]
        obtain ⟨es3, cl, helems⟩ : ∃ L b, elems = L ++ [b] := by
          rcases List.eq_nil_or_concat elems with h | ⟨L, b, h⟩
          · subst h; simp [List.isEmpty] at hne
          · exact ⟨L, b, by simpa [List.concat_eq_append] using h⟩
        have ALOOP : ∀ (es2 : List JVal), (∀ x ∈ es2, x ∈ elems) →
            ∀ (ds : List JVal),
            ∃ ds1, applyEntries
                (graftT T p (varr (List.replicate es2.length JVal.vhole ++ ds)))
                ((es2.enum.reverse).flatMap
                  (fun ei => flattenAux [(ei.2, p ++ [Step.idx ei.1])]))
              = .ok (graftT T p (varr (ds1 ++ ds))) ∧ SimRevL ds1 es2 := by
          intro es2
          induction es2 using List.reverseRecOn with
          | nil =>
              intro _ ds
              exact ⟨[], by simp [applyEntries_nil], SimRevL.nil⟩
          | append_singleton es4 c ihr =>
              intro hsub ds
              have hmemc : c ∈ elems := hsub c (by simp)
              have hszc : jsize c < n :=
                lt_of_lt_of_le (jsize_mem_arr_lt elems c hmemc) hsz
              have henum : ((es4 ++ [c]).enum).reverse
                  = (es4.length, c) :: es4.enum.reverse := by
                rw [enum_concat]; simp
              rw [henum]
              simp only [List.flatMap_cons]
              have hlen : (es4 ++ [c]).length = es4.length + 1 := by simp
              rw [hlen, applyEntries_append]
              have hres : resolve
                  (graftT T p (varr (List.replicate (es4.length + 1) JVal.vhole ++ ds))) p
                  = some (varr (List.replicate (es4.length + 1) JVal.vhole ++ ds)) :=
                resolve_graftT p T _ (Or.inl hfree) rfl
              have hfreec : freeAtB
                  (graftT T p (varr (List.replicate (es4.length + 1) JVal.vhole ++ ds)))
                  (p ++ [Step.idx es4.length]) = true :=
                freeAtB_append_single p (Step.idx es4.length) _ _ hres rfl
                  (hasKeyB_arr_hole es4.length ds)
              obtain ⟨wc, hwceq, hwcsim⟩ := ih (jsize c) hszc c le_rfl _
                (p ++ [Step.idx es4.length]) (goodL_mem elems hgl c hmemc) (by simp) hfreec
              have hrewc : graftT
                  (graftT T p (varr (List.replicate (es4.length + 1) JVal.vhole ++ ds)))
                  (p ++ [Step.idx es4.length]) wc
                  = graftT T p (varr (List.replicate es4.length JVal.vhole ++ wc :: ds)) := by
                rw [graftT_graftT_append p (Step.idx es4.length) T
                    (varr (List.replicate (es4.length + 1) JVal.vhole ++ ds)) wc
                    (Or.inl hfree) rfl,
                  setKeyT2_arr_mid]
              obtain ⟨ds1, hds1eq, hds1sim⟩ :=
                ihr (fun x hx => hsub x (by simp [hx])) (wc :: ds)
              refine ⟨ds1 ++ [wc], ?_,
                SimRevL_append hds1sim (SimRevL.cons wc c [] [] hwcsim SimRevL.nil)⟩
              rw [hwceq, except_bind_ok2, hrewc, hds1eq, List.append_assoc]
              rfl
        rw [helems]
        have henum : ((es3 ++ [cl]).enum).reverse = (es3.length, cl) :: es3.enum.reverse := by
          rw [enum_concat]; simp
        rw [henum]
        simp only [List.flatMap_cons]
        rw [applyEntries_append]
        have hmemc : cl ∈ elems := by rw [helems]; simp
        have hszc : jsize cl < n := lt_of_lt_of_le (jsize_mem_arr_lt elems cl hmemc) hsz
        obtain ⟨w1, hw1eq, hw1sim⟩ := ih (jsize cl) hszc cl le_rfl T
          (p ++ [Step.idx es3.length]) (goodL_mem elems hgl cl hmemc) (by simp)
          (freeAtB_extend p (Step.idx es3.length) T hfree)
        have hrew1 : graftT T (p ++ [Step.idx es3.length]) w1
            = graftT T p (varr (List.replicate es3.length JVal.vhole ++ [w1])) := by
          rw [graftT_free_append [Step.idx es3.length] (by simp) p T w1 hfree, graft_fresh_idx]
        obtain ⟨ds1, hds1eq, hds1sim⟩ := ALOOP es3 (fun x hx => by rw [helems]; simp [hx]) [w1]
        refine ⟨varr (ds1 ++ [w1]), ?_, ?_⟩
        · rw [hw1eq, except_bind_ok2, hrew1, hds1eq]
        · exact SimRev.arr _ _
            (SimRevL_append hds1sim (SimRevL.cons w1 cl [] [] hw1sim SimRevL.nil))

theorem SimRev_structEq : ∀ (n : Nat) (v w : JVal), jsize v ≤ n → goodVal v = true →
    SimRev w v → structEq w v = true := by
  intro n
  induction n using Nat.strong_induction_on with
  | _ n ih =>
    intro v w hsz hgood hsim
    cases hsim with
    | leaf u hleaf =>
        revert hleaf
        cases v <;> intro hleaf
        case vobj => simp [isCont] at hleaf
        case varr => simp [isCont] at hleaf
        all_goals simp [structEq]
    | obj ws fields hF =>
        rw [goodVal_obj] at hgood
        simp only [Bool.and_eq_true, Bool.not_eq_true'] at hgood
        obtain ⟨⟨hne, hnd⟩, hgf⟩ := hgood
        rw [structEq]
        simp only [Bool.and_eq_true, beq_iff_eq]
        constructor
        · have := SimRevF_length hF
          simpa using this
        · have HS : ∀ (ws2 fs2 : List (String × JVal)), SimRevF ws2 fs2 →
              (∀ kv ∈ fs2, kv ∈ fields) → structEqF ws2 fields = true := by
            intro ws2
            induction ws2 with
            | nil => intro fs2 _ _; rw [structEqF]
            | cons hd tl ih2 =>
                intro fs2 hsf hsub
                cases hsf
                rename_i k w2 cc r2 hr hf
                have hmem : (k, cc) ∈ fields := hsub _ (by simp)
                rw [structEqF, nodup_assocGet fields k cc hnd hmem]
                simp only [Bool.and_eq_true]
                constructor
                · exact ih (jsize cc)
                    (lt_of_lt_of_le (jsize_mem_obj_lt fields (k, cc) hmem) hsz) cc w2 le_rfl
                    (goodF_mem fields hgf (k, cc) hmem) hr
                · exact ih2 r2 hf (fun kv h => hsub kv (by simp [h]))
          exact HS ws fields.reverse hF (fun kv h => List.mem_reverse.mp h)
    | arr ds es hL =>
        rw [goodVal_arr] at hgood
        simp only [Bool.and_eq_true, Bool.not_eq_true'] at hgood
        obtain ⟨hne, hgl⟩ := hgood
        rw [structEq]
        have HS : ∀ (ds2 es2 : List JVal), SimRevL ds2 es2 → (∀ x ∈ es2, x ∈ es) →
            structEqL ds2 es2 = true := by
          intro ds2
          induction ds2 with
          | nil => intro es2 hsf _; cases hsf; rw [structEqL]
          | cons hd tl ih2 =>
              intro es2 hsf hsub
              cases hsf
              rename_i cc r2 hr hf
              rw [structEqL]
              simp only [Bool.and_eq_true]
              have hmem : cc ∈ es := hsub _ (by simp)
              constructor
              · exact ih (jsize cc) (lt_of_lt_of_le (jsize_mem_arr_lt es cc hmem) hsz) cc hd
                  le_rfl (goodL_mem es hgl cc hmem) hr
              · exact ih2 r2 hf (fun x h => hsub x (by simp [h]))
        exact HS ds es hL (fun x h => h)

theorem freeAtB_single (T : JVal) (k : Step) :
    freeAtB T [k] = (stepKindOK T k && !hasKeyB T k) := by
  rw [freeAtB]

/-- `rebuild ∘ flatten` on a well-formed object root: the fold over the
LIFO-ordered entries reconstructs the value up to the `SimRev` field
reversal. -/
theorem rebuild_flatten_good_obj (fields : List (String × JVal))
    (hgood : goodVal (vobj fields) = true) :
    ∃ ws, rebuild (flatten (vobj fields)) = .ok (vobj ws) ∧ SimRev (vobj ws) (vobj fields) := by
  rw [goodVal_obj] at hgood
  simp only [Bool.and_eq_true, Bool.not_eq_true'] at hgood
  obtain ⟨⟨hne, hnd⟩, hgf⟩ := hgood
  have hndrev : ((fields.reverse).map Prod.fst).Nodup := by
    rw [List.map_reverse]
    exact List.nodup_reverse.mpr ((nodupKeys_iff _).mp hnd)
  rw [rebuild_eq_applyEntries, flatten, flattenAux_cons_obj, List.append_nil,
    flattenAux_flatMap, ← List.map_reverse]
  simp only [flatMap_map_frames, List.nil_append]
  have LOOP : ∀ (js : List (String × JVal)), (∀ kv ∈ js, kv ∈ fields) →
      (js.map Prod.fst).Nodup →
      ∀ (ws : List (String × JVal)), (∀ kv ∈ js, assocHas ws kv.1 = false) →
      ∃ ws2, applyEntries (vobj ws)
          (js.flatMap (fun kv => flattenAux [(kv.2, [Step.fld kv.1])]))
        = .ok (vobj (ws ++ ws2)) ∧ SimRevF ws2 js := by
    intro js
    induction js with
    | nil =>
        intro _ _ ws _
        exact ⟨[], by simp [applyEntries_nil], SimRevF.nil⟩
    | cons kv js2 ihl =>
        intro hsub hnd2 ws hdisj
        obtain ⟨k, c⟩ := kv
        simp only [List.map_cons, List.nodup_cons] at hnd2
        have hmemf : (k, c) ∈ fields := hsub _ (by simp)
        have hw : assocHas ws k = false := by
          have := hdisj (k, c) (by simp)
          simpa using this
        have hfree : freeAtB (vobj ws) [Step.fld k] = true := by
          rw [freeAtB_single]
          show (true && !hasKeyB (vobj ws) (Step.fld k)) = true
          have : hasKeyB (vobj ws) (Step.fld k) = false := hw
          rw [this]
          rfl
        obtain ⟨wc, hwceq, hwcsim⟩ := applyEntries_flatten (jsize c) c le_rfl (vobj ws)
          [Step.fld k] (goodF_mem fields hgf (k, c) hmemf) (by simp) hfree
        have hrewc : graftT (vobj ws) [Step.fld k] wc = vobj (ws ++ [(k, wc)]) := by
          rw [graftT_single, setKeyT2_obj_append ws k wc hw]
        obtain ⟨ws2, hws2eq, hws2sim⟩ := ihl (fun kv2 h2 => hsub kv2 (by simp [h2]))
          hnd2.2 (ws ++ [(k, wc)])
          (fun kv2 h2 => by
            rw [assocHas_append]
            have h1 : assocHas ws kv2.1 = false := hdisj kv2 (by simp [h2])
            have hk2 : k ≠ kv2.1 := by
              intro hcontra
              exact hnd2.1 (hcontra ▸ List.mem_map_of_mem Prod.fst h2)
            rw [h1]
            simp [assocHas, hk2])
        refine ⟨(k, wc) :: ws2, ?_, SimRevF.cons k wc c _ _ hwcsim hws2sim⟩
        simp only [List.flatMap_cons]
        rw [applyEntries_append, hwceq, except_bind_ok2, hrewc, hws2eq, List.append_assoc]
        rfl
  obtain ⟨ws2, hws2eq, hws2sim⟩ := LOOP fields.reverse
    (fun kv h => List.mem_reverse.mp h) hndrev []
    (fun kv _ => rfl)
  exact ⟨ws2, by simpa using hws2eq, SimRev.obj _ _ hws2sim⟩

theorem merge_def (t s : JVal) : merge t s = mergeList t (entriesOf s) := by rw [merge]

theorem mergeList_nil (t : JVal) : mergeList t [] = t := by rw [mergeList]

theorem mergeList_cons (t : JVal) (k : String) (v : JVal) (rest : List (String × JVal)) :
    mergeList t ((k, v) :: rest) =
      mergeList (if isObjectType v && isObjectType (getKeyStr t k) then
          setKeyStrT t k (merge (getKeyStr t k) v)
        else setKeyStrT t k v) rest := by
  rw [mergeList]

theorem mergeList_obj (l : List (String × JVal)) (ts : List (String × JVal)) :
    ∃ rs, mergeList (vobj ts) l = vobj rs := by
  induction l generalizing ts with
  | nil => exact ⟨ts, mergeList_nil _⟩
  | cons kv rest ih =>
      obtain ⟨k, v⟩ := kv
      rw [mergeList_cons]
      by_cases hg : (isObjectType v && isObjectType (getKeyStr (vobj ts) k)) = true
      · rw [if_pos hg]
        simp only [setKeyStrT]
        exact ih _
      · rw [if_neg hg]
        simp only [setKeyStrT]
        exact ih _

theorem mergeList_get_nomem (l : List (String × JVal)) (ts rs : List (String × JVal))
    (k : String) (hk : k ∉ l.map Prod.fst) (hm : mergeList (vobj ts) l = vobj rs) :
    assocGet rs k = assocGet ts k := by
  induction l generalizing ts with
  | nil => rw [mergeList_nil] at hm; cases hm; rfl
  | cons kv rest ih =>
      obtain ⟨k1, v1⟩ := kv
      simp only [List.map_cons, List.mem_cons] at hk
      push_neg at hk
      rw [mergeList_cons] at hm
      simp only [setKeyStrT] at hm
      by_cases hg : (isObjectType v1 && isObjectType (getKeyStr (vobj ts) k1)) = true
      · rw [if_pos hg] at hm
        have := ih _ hk.2 hm
        rw [this, assocGet_assocSet_other _ _ _ _ hk.1]
      · rw [if_neg hg] at hm
        have := ih _ hk.2 hm
        rw [this, assocGet_assocSet_other _ _ _ _ hk.1]

theorem mergeList_get_mem (l : List (String × JVal)) (ts rs : List (String × JVal))
    (k : String) (v : JVal) (hnd : nodupKeys (l.map Prod.fst) = true) (hmem : (k, v) ∈ l)
    (hm : mergeList (vobj ts) l = vobj rs) :
    assocGet rs k =
      some (if isObjectType v && isObjectType ((assocGet ts k).getD JVal.vundef) then
        merge ((assocGet ts k).getD JVal.vundef) v
      else v) := by
  induction l generalizing ts with
  | nil => simp at hmem
  | cons kv rest ih =>
      obtain ⟨k1, v1⟩ := kv
      simp only [List.map_cons, nodupKeys, Bool.and_eq_true, Bool.not_eq_true'] at hnd
      rw [mergeList_cons] at hm
      rcases List.mem_cons.mp hmem with hhd | htl
      · have hk : k = k1 := by cases hhd; rfl
        have hv : v = v1 := by cases hhd; rfl
        subst hk; subst hv
        have hrestk : k ∉ rest.map Prod.fst := contains_false_not_mem hnd.1
        simp only [setKeyStrT, getKeyStr] at hm
        by_cases hg : (isObjectType v && isObjectType ((assocGet ts k).getD JVal.vundef)) = true
        · rw [if_pos hg] at hm ⊢
          rw [mergeList_get_nomem rest _ _ _ hrestk hm]
          exact assocGet_assocSet_self _ _ _
        · rw [if_neg hg] at hm ⊢
          rw [mergeList_get_nomem rest _ _ _ hrestk hm]
          exact assocGet_assocSet_self _ _ _
      · have hk1 : k ≠ k1 := by
          intro hc
          subst hc
          exact contains_false_not_mem hnd.1 (List.mem_map.mpr ⟨(k, v), htl, rfl⟩)
        simp only [setKeyStrT] at hm
        by_cases hg : (isObjectType v1 && isObjectType (getKeyStr (vobj ts) k1)) = true
        · rw [if_pos hg] at hm
          have := ih _ hnd.2 htl hm
          rwa [assocGet_assocSet_other _ _ _ _ hk1] at this
        · rw [if_neg hg] at hm
          have := ih _ hnd.2 htl hm
          rwa [assocGet_assocSet_other _ _ _ _ hk1] at this

theorem except_bind_ok {α β : Type} (a : Except String α) (f : α → Except String β) (r : β)
    (h : (a >>= f) = .ok r) : ∃ y, a = .ok y ∧ f y = .ok r := by
  cases a with
  | ok y => exact ⟨y, rfl, by simpa [Bind.bind, Except.bind] using h⟩
  | error e => simp [Bind.bind, Except.bind] at h

theorem setKey_obj (fs : List (String × JVal)) (k : Step) (w : JVal) :
    setKey (vobj fs) k w = .ok (vobj (assocSet fs (stepStr k) w)) := by
  cases k <;> rfl

theorem setPath_obj (path : List Step) (fs : List (String × JVal)) (v r : JVal)
    (h : setPath (vobj fs) path v = .ok r) : ∃ gs, r = vobj gs := by
  match path with
  | [] =>
      simp only [setPath] at h
      cases h
      exact ⟨fs, rfl⟩
  | [k] =>
      rw [setPath, setKey_obj] at h
      cases h
      exact ⟨_, rfl⟩
  | k :: k2 :: rest =>
      simp only [setPath, hasKeyE, isCont] at h
      by_cases hk : hasKeyB (vobj fs) k = true
      · simp only [hk, if_true, pure, Except.pure, Bind.bind, Except.bind] at h
        obtain ⟨c2, hc2, hfin⟩ := except_bind_ok _ _ _ (by simpa [Bind.bind] using h)
        rw [setKey_obj] at hfin
        cases hfin
        exact ⟨_, rfl⟩
      · simp only [hk, if_false, Bool.false_eq_true, pure, Except.pure, Bind.bind,
          Except.bind, setKey_obj] at h
        obtain ⟨c2, hc2, hfin⟩ := except_bind_ok _ _ _ (by simpa [Bind.bind] using h)
        cases hfin
        exact ⟨_, rfl⟩

theorem rebuild_loop_obj (entries : List Entry) (fs : List (String × JVal)) (r : JVal)
    (h : entries.foldlM (fun t e => setPath t e.path e.value) (vobj fs) = .ok r) :
    ∃ gs, r = vobj gs := by
  induction entries generalizing fs with
  | nil =>
      simp only [List.foldlM, pure, Except.pure] at h
      cases h
      exact ⟨fs, rfl⟩
  | cons e rest ih =>
      simp only [List.foldlM] at h
      obtain ⟨t2, ht2, hrest⟩ := except_bind_ok _ _ _ h
      obtain ⟨gs2, hgs2⟩ := setPath_obj _ _ _ _ ht2
      subst hgs2
      exact ih _ hrest

/-- C5: the claim (and spec section 4.1) requires `flatten` to list a
container's children in definition order, e.g. the entry for key `a`
before the entry for key `b` in `flatten(\x7ba: 1, b: 2\x7d)`; the code's
LIFO work list without child reversal emits `b` first. This theorem
evaluates the code at that failing input, exhibiting the reversed order
that spec section 9 itself flags as a defect to fix rather than a
behaviour to reproduce. -/
theorem C5_flatten_sibling_order :
    flatten (vobj [("a", vint 1), ("b", vint 2)]) =
      [⟨[Step.fld "b"], "b", vint 2, some "number"⟩,
       ⟨[Step.fld "a"], "a", vint 1, some "number"⟩] := by
  simp +decide [flatten, flattenAux, dotPathOf, dotJoin, stepStr, jsTypeof]

/-- C4 counterexample: the claim says `merge` never element-merges
sequences — `source[key]` is to replace `target[key]` wholesale whenever
`source[key]` is an array. In the code the `typeof === 'object'` guard
accepts arrays on both sides, so `merge(\x7ba: [1, 2]\x7d, \x7ba: [3]\x7d)`
element-merges to `\x7ba: [3, 2]\x7d` instead of replacing the array with
`[3]`. -/
theorem C4_counterexample :
    merge (vobj [("a", varr [vint 1, vint 2])]) (vobj [("a", varr [vint 3])])
      = vobj [("a", varr [vint 3, vint 2])] ∧
    vobj [("a", varr [vint 3, vint 2])] ≠ vobj [("a", varr [vint 3])] := by
  constructor
  · simp +decide [merge_def, mergeList_nil, mergeList_cons, entriesOf, isObjectType, getKeyStr,
      setKeyStrT, parseIdx, digitsToNat, digAux, natToString, natDigits, natDigitsAux, digitChar,
      setIdx, isHole, List.enum, assocGet, assocSet, assocHas]
  · intro h
    simp at h

/-- C4 amended: `merge(target, source)` recurses exactly where both
`target[key]` and `source[key]` pass the `typeof === 'object' && !== null`
guard — which plain objects and arrays (and in the full language Maps and
Sets) all pass — and only when at least one side is a terminal scalar or
null does `source[key]` replace `target[key]` wholesale; in particular
arrays are element-merged by index, not replaced. Stated for object
targets and duplicate-free object sources: the merged value at each source
key is the recursive merge under the guard and the source value otherwise,
and keys absent from the source are untouched. -/
theorem C4_merge_recursion_boundary_amended (ts fs : List (String × JVal)) (k : String)
    (v : JVal) (hnd : nodupKeys (fs.map Prod.fst) = true) (hmem : (k, v) ∈ fs) :
    ∃ rs, merge (vobj ts) (vobj fs) = vobj rs ∧
      assocGet rs k =
        some (if isObjectType v && isObjectType ((assocGet ts k).getD JVal.vundef) then
          merge ((assocGet ts k).getD JVal.vundef) v
        else v) ∧
      ∀ k2, k2 ∉ fs.map Prod.fst → assocGet rs k2 = assocGet ts k2 := by
  obtain ⟨rs, hrs⟩ := mergeList_obj fs ts
  rw [merge_def]
  have he : entriesOf (vobj fs) = fs := rfl
  rw [he]
  refine ⟨rs, hrs, ?_, ?_⟩
  · have := mergeList_get_mem fs ts rs k v hnd hmem hrs
    simpa [getKeyStr] using this
  · intro k2 hk2
    exact mergeList_get_nomem fs ts rs k2 hk2 hrs

/-- Witness for the amended C4 theorem at a concrete input. -/
theorem C4_merge_recursion_boundary_amended_witness :
    nodupKeys ([("a", (vint 2 : JVal))].map Prod.fst) = true ∧
    ("a", (vint 2 : JVal)) ∈ [("a", (vint 2 : JVal))] ∧
    (∃ rs, merge (vobj [("a", vint 1)]) (vobj [("a", vint 2)]) = vobj rs ∧
      assocGet rs "a" =
        some (if isObjectType (vint 2) &&
            isObjectType ((assocGet [("a", vint 1)] "a").getD JVal.vundef) then
          merge ((assocGet [("a", vint 1)] "a").getD JVal.vundef) (vint 2)
        else vint 2) ∧
      ∀ k2, k2 ∉ [("a", (vint 2 : JVal))].map Prod.fst →
        assocGet rs k2 = assocGet [("a", vint 1)] k2) :=
  ⟨by decide, by simp,
    C4_merge_recursion_boundary_amended [("a", vint 1)] [("a", vint 2)] "a" (vint 2)
      (by decide) (by simp)⟩

/-- C10: `rebuild` always roots the result at a plain field-keyed object:
the empty entry list yields the empty object, entries whose first step is
a numeric index land as string keys "0", "1" on an object root rather
than producing an array, and every successful rebuild returns an object. -/
theorem C10_rebuild_roots_plain_object :
    rebuild ([] : List Entry) = .ok (vobj []) ∧
    rebuild [⟨[Step.idx 0], "0", vint 7, none⟩, ⟨[Step.idx 1], "1", vint 8, none⟩]
      = .ok (vobj [("0", vint 7), ("1", vint 8)]) ∧
    ∀ (entries : List Entry) (r : JVal), rebuild entries = .ok r → ∃ gs, r = vobj gs := by
  refine ⟨?_, ?_, ?_⟩
  · simp [rebuild, List.foldlM, pure, Except.pure]
  · simp +decide [rebuild, List.foldlM, pure, Except.pure, Bind.bind, Except.bind, setPath,
      setKey, assocSet, assocHas, stepStr, natToString, natDigits, natDigitsAux, digitChar]
  · intro entries r h
    exact rebuild_loop_obj entries [] r h

/-- Witness for the universally quantified part of C10 at a concrete
entry list. -/
theorem C10_rebuild_roots_plain_object_witness :
    rebuild [⟨[Step.fld "x"], "x", vint 5, none⟩] = .ok (vobj [("x", vint 5)]) ∧
    (∃ gs, (vobj [("x", vint 5)] : JVal) = vobj gs) := by
  have hre : rebuild [⟨[Step.fld "x"], "x", vint 5, none⟩] = .ok (vobj [("x", vint 5)]) := by
    simp +decide [rebuild, List.foldlM, pure, Except.pure, Bind.bind, Except.bind, setPath,
      setKey, assocSet, assocHas, stepStr]
  exact ⟨hre, C10_rebuild_roots_plain_object.2.2 _ _ hre⟩

/-- C9: a `find` call whose primary target is not a usable string (empty,
whitespace-only or not a string at all) and whose fallback list holds no
usable string returns exactly the no-match result without touching the
entries and without raising any condition. -/
theorem C9_find_no_usable_target (entries : List Entry) (opts : FindOptions)
    (rtest : String → Bool → String → Bool)
    (h : findTargets opts.target opts.fallbacks = []) :
    find entries opts rtest = ({ matched := false, results := [] }, entries) := by
  simp [find, h]

/-- Witness for C9 at a concrete whitespace/non-string target
configuration. -/
theorem C9_find_no_usable_target_witness :
    findTargets (vstr "  ") [vint 3, vstr "", vstr " "] = [] ∧
    find [⟨[Step.fld "a"], "a", vstr "x", none⟩]
        { target := vstr "  ", fallbacks := [vint 3, vstr "", vstr " "] }
        (fun _ _ _ => false)
      = ({ matched := false, results := [] }, [⟨[Step.fld "a"], "a", vstr "x", none⟩]) :=
  ⟨by decide,
    C9_find_no_usable_target _ _ _ (by decide)⟩

theorem dedupFirst_loop_mem (l : List String) (acc : List String) (p : String) :
    p ∈ l.foldl (fun acc k => if k ∈ acc then acc else acc ++ [k]) acc ↔ p ∈ acc ∨ p ∈ l := by
  induction l generalizing acc with
  | nil => simp
  | cons hd tl ih =>
      simp only [List.foldl_cons]
      by_cases h : hd ∈ acc
      · rw [if_pos h, ih]
        constructor
        · rintro (h1 | h1)
          · exact Or.inl h1
          · exact Or.inr (List.mem_cons_of_mem _ h1)
        · rintro (h1 | h1)
          · exact Or.inl h1
          · rcases List.mem_cons.mp h1 with h2 | h2
            · subst h2; exact Or.inl h
            · exact Or.inr h2
      · rw [if_neg h, ih]
        simp only [List.mem_append, List.mem_singleton, List.mem_cons]
        tauto

theorem dedupFirst_loop_nodup (l : List String) (acc : List String) (hacc : acc.Nodup) :
    (l.foldl (fun acc k => if k ∈ acc then acc else acc ++ [k]) acc).Nodup := by
  induction l generalizing acc with
  | nil => simpa
  | cons hd tl ih =>
      simp only [List.foldl_cons]
      by_cases h : hd ∈ acc
      · rw [if_pos h]
        exact ih _ hacc
      · rw [if_neg h]
        refine ih _ ?_
        simpa [List.nodup_append, hacc] using h

theorem dedupFirst_mem (l : List String) (p : String) : p ∈ dedupFirst l ↔ p ∈ l := by
  rw [dedupFirst, dedupFirst_loop_mem]
  simp

theorem dedupFirst_nodup (l : List String) : (dedupFirst l).Nodup :=
  dedupFirst_loop_nodup l [] List.nodup_nil

theorem innerScan_no_match (opts : FindOptions) (rtest : String → Bool → String → Bool)
    (t : String) :
    ∀ (es : List Entry) (st : ScanSt),
      (∀ e ∈ es, entryMatches opts rtest t e = false) →
      innerScan opts rtest t es st = (es, st, false) := by
  intro es
  induction es with
  | nil => intro st _; rfl
  | cons e rest ih =>
      intro st h
      have he : entryMatches opts rtest t e = false := h e (by simp)
      simp only [innerScan, he, Bool.false_and, if_false, Bool.false_eq_true]
      rw [ih st (fun e2 hm => h e2 (by simp [hm]))]

theorem innerScan_stops (opts : FindOptions) (rtest : String → Bool → String → Bool)
    (t : String) (hfa : opts.findAll = false) :
    ∀ (es : List Entry) (st : ScanSt),
      (∃ e ∈ es, entryMatches opts rtest t e = true ∧ st.seen.contains e.dotPath = false) →
      (innerScan opts rtest t es st).2.2 = true := by
  intro es
  induction es with
  | nil =>
      rintro st ⟨e, he, _⟩
      cases he
  | cons e rest ih =>
      rintro st ⟨w, hw, hmatch, hseen⟩
      by_cases hcond : (entryMatches opts rtest t e && !(st.seen.contains e.dotPath)) = true
      · simp only [innerScan, hcond, if_true, hfa, Bool.false_eq_true, if_false]
      · simp only [innerScan, hcond, if_false, Bool.false_eq_true]
        rcases List.mem_cons.mp hw with hwh | hwr
        · subst hwh
          exact absurd (by simp only [hmatch, Bool.true_and, hseen]; rfl) hcond
        · exact ih st ⟨w, hwr, hmatch, hseen⟩

theorem innerScan_fallbacks_irrelevant (opts : FindOptions)
    (rtest : String → Bool → String → Bool) (t : String) :
    ∀ (es : List Entry) (st : ScanSt),
      innerScan { opts with fallbacks := [] } rtest t es st = innerScan opts rtest t es st := by
  have hem : ∀ (t2 : String) (e : Entry),
      entryMatches { opts with fallbacks := [] } rtest t2 e = entryMatches opts rtest t2 e :=
    fun _ _ => rfl
  have hmk : ∀ (k : Option Step) (v : JVal) (e : Entry),
      mkFindItem { opts with fallbacks := [] } k v e = mkFindItem opts k v e :=
    fun _ _ _ => rfl
  intro es
  induction es with
  | nil => intro st; rfl
  | cons e rest ih =>
      intro st
      simp only [innerScan, hem, hmk, ih]

theorem outerScan_first_match (opts : FindOptions) (rtest : String → Bool → String → Bool)
    (hfa : opts.findAll = false) (t : String) (ts : List String) (es : List Entry)
    (st : ScanSt)
    (h : ∃ e ∈ es, entryMatches opts rtest t e = true ∧ st.seen.contains e.dotPath = false) :
    outerScan opts rtest (t :: ts) es st = innerScan opts rtest t es st := by
  have hstop := innerScan_stops opts rtest t hfa es st h
  simp only [outerScan, hstop, if_true]

/-- C6 counterexample: with `findAll: true` the outer target loop keeps
scanning the fallback targets even though the primary target already
matched, so a fallback contributes a second result — the claim says no
fallback may contribute once the primary matched at least one entry. Here
target "a" matches the first entry and fallback "b" still contributes the
second. -/
theorem C6_counterexample :
    find [⟨[Step.fld "a"], "a", vstr "x", none⟩, ⟨[Step.fld "b"], "b", vstr "y", none⟩]
        { target := vstr "a", fallbacks := [vstr "b"], findAll := true }
        (fun _ _ _ => false)
      = ({ matched := true,
           results := [FindItem.full (some (Step.fld "a")) (vstr "x") [Step.fld "a"] "a",
                       FindItem.full (some (Step.fld "b")) (vstr "y") [Step.fld "b"] "b"] },
         [⟨[Step.fld "a"], "a", vstr "x", none⟩, ⟨[Step.fld "b"], "b", vstr "y", none⟩]) := by
  simp +decide [find, findTargets, trimChars, isWsChar, outerScan, innerScan, entryMatches,
    entrySkipped, isMatchStr, keyString, valString, stepStr, jsTypeof, mkFindItem]

/-- C6 amended: the first-target-wins/fallbacks-only-on-zero-matches
discipline is the `findAll: false` behaviour: there the first usable
target that matches any entry fully determines the result and the
fallback list is irrelevant, and a target that matches nothing passes the
scan on to the next target with the state untouched (for any `findAll`).
With `findAll: true` the code instead lets every target contribute its
matches, deduplicated by dotPath, as the counterexample shows. -/
theorem C6_fallback_order_amended :
    (∀ (entries : List Entry) (opts : FindOptions) (rtest : String → Bool → String → Bool)
        (s : String),
      opts.findAll = false → opts.target = vstr s → (trimChars s.data).isEmpty = false →
      entries.any (fun e => entryMatches opts rtest s e) = true →
      find entries opts rtest = find entries { opts with fallbacks := [] } rtest) ∧
    (∀ (opts : FindOptions) (rtest : String → Bool → String → Bool) (t : String)
        (ts : List String) (es : List Entry) (st : ScanSt),
      (∀ e ∈ es, entryMatches opts rtest t e = false) →
      outerScan opts rtest (t :: ts) es st = outerScan opts rtest ts es st) := by
  constructor
  · intro entries opts rtest s hfa htgt htrim hany
    have hmatch : ∃ e ∈ entries, entryMatches opts rtest s e = true ∧
        (([] : List String).contains e.dotPath) = false := by
      obtain ⟨e, he, hm⟩ := List.any_eq_true.mp hany
      exact ⟨e, he, hm, rfl⟩
    have hopts2 : ({ opts with fallbacks := [] } : FindOptions).findAll = false := hfa
    have hem : ∀ (t : String) (e : Entry),
        entryMatches { opts with fallbacks := [] } rtest t e = entryMatches opts rtest t e := by
      intro t e
      rfl
    have ht1 : findTargets opts.target opts.fallbacks
        = s :: opts.fallbacks.filterMap (fun t =>
            match t with
            | .vstr s2 => if (trimChars s2.data).isEmpty then none else some s2
            | _ => none) := by
      rw [htgt]
      simp [findTargets, htrim]
    have ht2 : findTargets ({ opts with fallbacks := [] } : FindOptions).target
        ({ opts with fallbacks := [] } : FindOptions).fallbacks = [s] := by
      simp only [htgt]
      simp [findTargets, htrim]
    have hscan1 := outerScan_first_match opts rtest hfa s
      (opts.fallbacks.filterMap (fun t =>
        match t with
        | .vstr s2 => if (trimChars s2.data).isEmpty then none else some s2
        | _ => none)) entries { seen := [], results := [] } hmatch
    have hscan2 := outerScan_first_match opts rtest hfa s [] entries
      { seen := [], results := [] } hmatch
    have hscan2b : outerScan { opts with fallbacks := [] } rtest [s] entries
        { seen := [], results := [] }
        = outerScan opts rtest [s] entries { seen := [], results := [] } := by
      simp only [outerScan, innerScan_fallbacks_irrelevant]
    simp only [find, ht1, ht2, List.isEmpty_cons, if_false, Bool.false_eq_true, hscan2b]
    rw [hscan1, hscan2]
  · intro opts rtest t ts es st h
    have hin := innerScan_no_match opts rtest t es st h
    simp [outerScan, hin]

/-- Witness for the amended C6 theorem at a concrete primary-match
configuration and a concrete zero-match fallback step. -/
theorem C6_fallback_order_amended_witness :
    (find [⟨[Step.fld "a"], "a", vstr "x", none⟩]
        { target := vstr "a", fallbacks := [vstr "b"] } (fun _ _ _ => false)
      = find [⟨[Step.fld "a"], "a", vstr "x", none⟩]
        { target := vstr "a", fallbacks := [] } (fun _ _ _ => false)) ∧
    outerScan { target := vstr "zz" } (fun _ _ _ => false) ["zz"]
        [⟨[Step.fld "a"], "a", vstr "x", none⟩] { seen := [], results := [] }
      = outerScan { target := vstr "zz" } (fun _ _ _ => false) []
        [⟨[Step.fld "a"], "a", vstr "x", none⟩] { seen := [], results := [] } := by
  constructor
  · exact C6_fallback_order_amended.1 _ _ _ "a" rfl rfl (by decide)
      (by simp +decide [entryMatches, entrySkipped, isMatchStr, keyString, valString,
        stepStr, jsTypeof])
  · exact C6_fallback_order_amended.2 _ _ "zz" [] _ _
      (by intro e he
          simp only [List.mem_singleton] at he
          subst he
          simp +decide [entryMatches, entrySkipped, isMatchStr, keyString, valString,
            stepStr, jsTypeof])

/-- C7: the `original` baseline set at construction is never changed by
any subsequent operation — `updateEntry`, `removeEntry`, `mergeWith`,
`revertChanges`, `syncEntries` and `find` (with or without `mutate`) all
leave it identical — and `getOriginal` hands out (a clone of) exactly
that baseline. The `watchLive` tick (`watchTick`) never reads or writes
the baseline at all in the model, and `getChanges` reads it only through
`flatten s.original`. Reference-aliasing concerns (mutating the value
returned by `getOriginal`) are discharged by the deep clone, modelled as
value semantics. -/
theorem C7_original_immutable :
    (∀ (s : State) (p : String) (v : JVal), (updateEntry s p v).original = s.original) ∧
    (∀ (s : State) (p : String), (removeEntry s p).original = s.original) ∧
    (∀ (s : State) (src : JVal), (mergeWith s src).original = s.original) ∧
    (∀ (s : State) (es : List Entry), (syncEntries s es).original = s.original) ∧
    (∀ (s : State) (d : List Change) (s2 : State),
      revertChanges s d = .ok s2 → s2.original = s.original) ∧
    (∀ (s : State) (opts : FindOptions) (rtest : String → Bool → String → Bool),
      ((findState s opts rtest).2).original = s.original) ∧
    (∀ s : State, getOriginal s = s.original) := by
  refine ⟨?_, ?_, ?_, ?_, ?_, ?_, ?_⟩
  · intro s p v
    cases hix : s.entries.findIdx? (fun e => e.dotPath == p) <;> simp [updateEntry, hix]
  · intro s p
    simp [removeEntry]
  · intro s src
    simp [mergeWith]
  · intro s es
    simp [syncEntries]
  · intro s d s2 h
    simp only [revertChanges, Bind.bind] at h
    obtain ⟨r, hr, h2⟩ := except_bind_ok _ _ _ h
    obtain ⟨rv, hrv, h3⟩ := except_bind_ok _ _ _ h2
    simp only [pure, Except.pure, Except.ok.injEq] at h3
    rw [← h3]
  · intro s opts rtest
    simp [findState]
  · intro s
    simp [getOriginal]

/-- Witness for the hypothesis-bearing part of C7 (`revertChanges`) at a
concrete state and diff. -/
theorem C7_original_immutable_witness :
    revertChanges (init (vobj [("a", vint 1)])) []
        = .ok { original := vobj [("a", vint 1)],
                entries := flatten (vobj [("a", vint 1)]) } ∧
    ({ original := vobj [("a", vint 1)],
       entries := flatten (vobj [("a", vint 1)]) } : State).original
      = (init (vobj [("a", vint 1)])).original := by
  have h : revertChanges (init (vobj [("a", vint 1)])) []
      = .ok { original := vobj [("a", vint 1)],
              entries := flatten (vobj [("a", vint 1)]) } := by
    have hfl : flatten (vobj [("a", vint 1)]) = [⟨[Step.fld "a"], "a", vint 1, some "number"⟩] := by
      simp +decide [flatten, flattenAux, dotPathOf, dotJoin, stepStr, jsTypeof]
    simp +decide [revertChanges, init, hfl, Bind.bind, Except.bind, pure, Except.pure,
      rebuild, List.foldlM, setPath, setKey, assocSet, assocHas, stepStr, applyChanges]
  exact ⟨h, C7_original_immutable.2.2.2.2.1 _ _ _ h⟩

/-- C8: on every tick of the live-watch loop, the live entries are rebuilt
and re-flattened, the diff against the retained snapshot is computed, the
callback fires exactly when that diff is non-empty, and the retained
snapshot advances to the current flattening exactly in that case — an
empty diff leaves the snapshot untouched and fires nothing. Consequently a
whole run of ticks never delivers an empty diff to the callback. -/
theorem C8_watch_tick_behaviour :
    (∀ (entries previousFlat : List Entry) (options : WatchOptions) (snap : List Entry)
        (cb : Option (List Change)),
      watchTick entries previousFlat options = .ok (snap, cb) →
      ∃ r, rebuild entries = .ok r ∧
        (watch previousFlat (flatten r) options = [] → cb = none ∧ snap = previousFlat) ∧
        (watch previousFlat (flatten r) options ≠ [] →
          cb = some (watch previousFlat (flatten r) options) ∧ snap = flatten r)) ∧
    (∀ (options : WatchOptions) (states : List (List Entry)) (prev fin : List Entry)
        (cbs : List (List Change)),
      watchRun options states prev = .ok (fin, cbs) → [] ∉ cbs) := by
  have tick : ∀ (entries previousFlat : List Entry) (options : WatchOptions)
      (snap : List Entry) (cb : Option (List Change)),
      watchTick entries previousFlat options = .ok (snap, cb) →
      ∃ r, rebuild entries = .ok r ∧
        (watch previousFlat (flatten r) options = [] → cb = none ∧ snap = previousFlat) ∧
        (watch previousFlat (flatten r) options ≠ [] →
          cb = some (watch previousFlat (flatten r) options) ∧ snap = flatten r) := by
    intro entries previousFlat options snap cb h
    simp only [watchTick, Bind.bind] at h
    obtain ⟨r, hr, h2⟩ := except_bind_ok _ _ _ h
    refine ⟨r, hr, ?_, ?_⟩
    · intro hw
      simp only [hw, List.isEmpty_nil, if_true, pure, Except.pure, Except.ok.injEq] at h2
      cases h2
      exact ⟨rfl, rfl⟩
    · intro hw
      have : (watch previousFlat (flatten r) options).isEmpty = false := by
        rcases hl : watch previousFlat (flatten r) options with _ | ⟨c, cs⟩
        · exact absurd hl hw
        · rfl
      simp only [this, if_false, Bool.false_eq_true, pure, Except.pure, Except.ok.injEq] at h2
      cases h2
      exact ⟨rfl, rfl⟩
  refine ⟨tick, ?_⟩
  intro options states
  induction states with
  | nil =>
      intro prev fin cbs h
      simp only [watchRun, Except.ok.injEq] at h
      cases h
      simp
  | cons es rest ih =>
      intro prev fin cbs h
      simp only [watchRun, Bind.bind] at h
      obtain ⟨⟨prev2, cb⟩, htick, h2⟩ := except_bind_ok _ _ _ h
      obtain ⟨⟨fin2, cbs2⟩, hrun, h3⟩ := except_bind_ok _ _ _ h2
      simp only [pure, Except.pure, Except.ok.injEq] at h3
      cases h3
      obtain ⟨r, _, hempty, hnonempty⟩ := tick _ _ _ _ _ htick
      intro hmem
      cases cb with
      | none => exact ih _ _ _ hrun hmem
      | some ch =>
          by_cases hw : watch prev (flatten r) options = []
          · exact absurd (hempty hw).1 (by simp)
          · have h1 := (hnonempty hw).1
            have h2 : ch = watch prev (flatten r) options := by
              injection h1
            simp only [List.mem_cons] at hmem
            rcases hmem with hc | hc
            · exact hw (by rw [← h2, ← hc])
            · exact ih _ _ _ hrun hc

/-- Witness for C8 at a concrete tick and run. -/
theorem C8_watch_tick_behaviour_witness :
    watchTick [] [] {} = .ok ([], none) ∧
    (∃ r, rebuild ([] : List Entry) = .ok r ∧
      (watch [] (flatten r) {} = [] → (none : Option (List Change)) = none ∧ ([] : List Entry) = []) ∧
      (watch [] (flatten r) {} ≠ [] →
        (none : Option (List Change)) = some (watch [] (flatten r) {}) ∧ ([] : List Entry) = flatten r)) ∧
    ([] : List Change) ∉ ([] : List (List Change)) := by
  have h : watchTick ([] : List Entry) [] {} = .ok ([], none) := by
    simp [watchTick, rebuild, List.foldlM, Bind.bind, Except.bind, pure, Except.pure,
      flatten, flattenAux, watch, toMap, dedupFirst]
  have hrun : watchRun {} ([] : List (List Entry)) [] = .ok ([], []) := by
    simp [watchRun]
  exact ⟨h, C8_watch_tick_behaviour.1 _ _ _ _ _ h,
    C8_watch_tick_behaviour.2 {} [] [] [] [] hrun⟩

theorem applyChanges_nil (t : JVal) : applyChanges t [] = .ok t := rfl

theorem applyChanges_cons (t : JVal) (c : Change) (rest : List Change) :
    applyChanges t (c :: rest)
      = Except.bind (applyChangesStep t (keySplit c.path) c)
          (fun t2 => applyChanges t2 rest) := rfl

theorem applyChangesStep_single (t : JVal) (k : String) (c : Change) :
    applyChangesStep t [k] c
      = if c.type = .removed then removeKeyStr t k else setKeyStrE t k (changeValue c) := by
  rw [applyChangesStep]

theorem invertChange_path (c : Change) : (invertChange c).path = c.path := by
  cases h : c.type <;> simp [invertChange, h]

theorem assocGet_some_mem (l : List (String × JVal)) (k : String) (v : JVal)
    (h : assocGet l k = some v) : (k, v) ∈ l := by
  induction l with
  | nil => cases h
  | cons hd tl ih =>
      rw [assocGet_cons] at h
      by_cases hk : (hd.1 == k) = true
      · rw [if_pos hk] at h
        have h1 : hd.1 = k := by simpa using hk
        have h2 : hd.2 = v := by simpa using h
        subst h1
        subst h2
        simp
      · rw [if_neg hk] at h
        exact List.mem_cons_of_mem _ (ih h)

theorem assocGet_assocRemove_self (l : List (String × JVal)) (k : String) :
    assocGet (assocRemove l k) k = none := by
  induction l with
  | nil => rfl
  | cons hd tl ih =>
      by_cases hk : hd.1 = k
      · simp only [assocRemove, List.filter_cons, hk, bne_self_eq_false, Bool.false_eq_true,
          if_false]
        exact ih
      · have hne : (hd.1 != k) = true := by simp [hk]
        simp only [assocRemove, List.filter_cons, hne, if_true]
        rw [assocGet_cons, if_neg (by simp [hk])]
        exact ih

theorem assocGet_assocRemove_other (l : List (String × JVal)) (k k2 : String) (h : k2 ≠ k) :
    assocGet (assocRemove l k) k2 = assocGet l k2 := by
  induction l with
  | nil => rfl
  | cons hd tl ih =>
      by_cases hk : hd.1 = k
      · simp only [assocRemove, List.filter_cons, hk, bne_self_eq_false, Bool.false_eq_true,
          if_false]
        rw [assocGet_cons, if_neg (by simp [hk, Ne.symm h])]
        exact ih
      · have hne : (hd.1 != k) = true := by simp [hk]
        simp only [assocRemove, List.filter_cons, hne, if_true]
        rw [assocGet_cons, assocGet_cons]
        by_cases h2 : (hd.1 == k2) = true
        · rw [if_pos h2, if_pos h2]
        · rw [if_neg h2, if_neg h2]
          exact ih

theorem assocGet_reverse (l : List (String × JVal)) (h : (l.map Prod.fst).Nodup)
    (k : String) : assocGet l.reverse k = assocGet l k := by
  cases hg : assocGet l k with
  | some v =>
      have hmem : (k, v) ∈ l.reverse := List.mem_reverse.mpr (assocGet_some_mem l k v hg)
      have hnd : nodupKeys (l.reverse.map Prod.fst) = true := by
        rw [List.map_reverse]
        exact (nodupKeys_iff _).mpr (List.nodup_reverse.mpr h)
      exact nodup_assocGet l.reverse k v hnd hmem
  | none =>
      rw [assocGet_eq_none_iff] at hg ⊢
      cases hh : assocHas l.reverse k
      · rfl
      · exfalso
        have : k ∈ l.reverse.map Prod.fst := (assocHas_iff_mem _ _).mp hh
        rw [List.map_reverse, List.mem_reverse] at this
        have : assocHas l k = true := (assocHas_iff_mem _ _).mpr this
        rw [this] at hg
        cases hg

theorem strictEq_leaf_eq (a b : JVal) (ha : isCont a = false) (ha2 : a ≠ vhole)
    (hb : isCont b = false) (hb2 : b ≠ vhole) (h : strictEq a b = true) : a = b := by
  cases a <;> cases b <;> simp_all [strictEq, isCont]

theorem flatten_flat_obj (fs : List (String × JVal)) (h : ∀ kv ∈ fs, isCont kv.2 = false) :
    flatten (vobj fs)
      = fs.reverse.map (fun kv => ⟨[Step.fld kv.1], kv.1, kv.2, some (jsTypeof kv.2)⟩) := by
  rw [flatten, flattenAux_cons_obj, List.append_nil, flattenAux_flatMap, ← List.map_reverse]
  simp only [flatMap_map_frames, List.nil_append]
  have H : ∀ (l : List (String × JVal)), (∀ kv ∈ l, isCont kv.2 = false) →
      l.flatMap (fun kv => flattenAux [(kv.2, [Step.fld kv.1])])
        = l.map (fun kv => ⟨[Step.fld kv.1], kv.1, kv.2, some (jsTypeof kv.2)⟩) := by
    intro l hl
    induction l with
    | nil => rfl
    | cons kv rest ihl =>
        simp only [List.flatMap_cons, List.map_cons]
        rw [flattenAux_cons_leaf kv.2 (hl kv (by simp)) _ _, flattenAux_nil,
          ihl (fun kv2 h2 => hl kv2 (by simp [h2]))]
        simp [dotPathOf, dotJoin, stepStr]
  exact H fs.reverse (fun kv h2 => h kv (List.mem_reverse.mp h2))

theorem toMap_fresh : ∀ (l : List Entry) (acc : List (String × JVal)),
    (∀ e ∈ l, assocHas acc e.dotPath = false) → (l.map Entry.dotPath).Nodup →
    l.foldl (fun m e => assocSet m e.dotPath e.value) acc
      = acc ++ l.map (fun e => (e.dotPath, e.value)) := by
  intro l
  induction l with
  | nil => intro acc _ _; simp
  | cons e rest ih =>
      intro acc hacc hnd
      simp only [List.map_cons, List.nodup_cons] at hnd
      simp only [List.foldl_cons, List.map_cons]
      have hfresh : assocHas acc e.dotPath = false := hacc e (by simp)
      have hset : assocSet acc e.dotPath e.value = acc ++ [(e.dotPath, e.value)] := by
        rw [assocSet, if_neg (by rw [hfresh]; simp)]
      rw [hset, ih (acc ++ [(e.dotPath, e.value)]) ?hdisj hnd.2]
      · simp
      case hdisj =>
        intro e2 h2
        rw [assocHas_append]
        have h1 : assocHas acc e2.dotPath = false := hacc e2 (by simp [h2])
        have hne : e.dotPath ≠ e2.dotPath :=
          fun hc => hnd.1 (hc ▸ List.mem_map_of_mem Entry.dotPath h2)
        rw [h1]
        simp [assocHas, hne]

theorem toMap_nodup (l : List Entry) (h : (l.map Entry.dotPath).Nodup) :
    toMap l = l.map (fun e => (e.dotPath, e.value)) := by
  have := toMap_fresh l [] (fun e _ => rfl) h
  simpa [toMap] using this

theorem toMap_flatten_flat (fs : List (String × JVal)) (h : ∀ kv ∈ fs, isCont kv.2 = false)
    (hnd : (fs.map Prod.fst).Nodup) :
    toMap (flatten (vobj fs)) = fs.reverse := by
  rw [flatten_flat_obj fs h]
  have hkeys : (((fs.reverse.map
      (fun kv => (⟨[Step.fld kv.1], kv.1, kv.2, some (jsTypeof kv.2)⟩ : Entry)))).map
        Entry.dotPath).Nodup := by
    rw [List.map_map]
    have he : (Entry.dotPath ∘ (fun kv : String × JVal =>
        (⟨[Step.fld kv.1], kv.1, kv.2, some (jsTypeof kv.2)⟩ : Entry))) = Prod.fst := by
      funext kv
      rfl
    rw [he, List.map_reverse]
    exact List.nodup_reverse.mpr hnd
  rw [toMap_nodup _ hkeys, List.map_map]
  have he2 : ((fun (e : Entry) => (e.dotPath, e.value)) ∘ (fun kv : String × JVal =>
      (⟨[Step.fld kv.1], kv.1, kv.2, some (jsTypeof kv.2)⟩ : Entry)))
      = fun kv : String × JVal => kv := by
    funext kv
    rfl
  rw [he2]
  simp

theorem rebuild_flat (fs : List (String × JVal)) (h : ∀ kv ∈ fs, isCont kv.2 = false)
    (hnd : (fs.map Prod.fst).Nodup) :
    rebuild (flatten (vobj fs)) = .ok (vobj fs.reverse) := by
  rw [flatten_flat_obj fs h, rebuild_eq_applyEntries]
  have H : ∀ (l : List (String × JVal)) (ws : List (String × JVal)),
      (∀ kv ∈ l, assocHas ws kv.1 = false) → (l.map Prod.fst).Nodup →
      applyEntries (vobj ws)
        (l.map (fun kv => ⟨[Step.fld kv.1], kv.1, kv.2, some (jsTypeof kv.2)⟩))
      = .ok (vobj (ws ++ l)) := by
    intro l
    induction l with
    | nil => intro ws _ _; simp [applyEntries_nil]
    | cons kv rest ihl =>
        intro ws hws hnd2
        simp only [List.map_cons, List.nodup_cons] at hnd2
        simp only [List.map_cons]
        rw [applyEntries_cons]
        have hfresh : assocHas ws kv.1 = false := hws kv (by simp)
        have hset : setPath (vobj ws) [Step.fld kv.1] kv.2
            = .ok (vobj (ws ++ [(kv.1, kv.2)])) := by
          show setKey (vobj ws) (Step.fld kv.1) kv.2 = _
          rw [setKey_obj, show stepStr (Step.fld kv.1) = kv.1 from rfl, assocSet,
            if_neg (by rw [hfresh]; simp)]
        simp only [hset, except_bind_ok2]
        rw [ihl (ws ++ [(kv.1, kv.2)]) ?fresh hnd2.2, List.append_assoc]
        · rfl
        case fresh =>
          intro kv2 h2
          rw [assocHas_append]
          have h1 : assocHas ws kv2.1 = false := hws kv2 (by simp [h2])
          have hne : kv.1 ≠ kv2.1 := fun hc => hnd2.1 (hc ▸ List.mem_map_of_mem Prod.fst h2)
          rw [h1]
          simp [assocHas, hne]
  have := H fs.reverse []
    (fun kv _ => rfl)
    (by rw [List.map_reverse]; exact List.nodup_reverse.mpr hnd)
  simpa using this

theorem applyChanges_flat : ∀ (cs : List Change) (g : List (String × JVal)),
    (∀ c ∈ cs, keySplit c.path = [c.path]) → (cs.map Change.path).Nodup →
    ∃ gs, applyChanges (vobj g) cs = .ok (vobj gs) ∧
      ∀ k, assocGet gs k =
        (match cs.find? (fun c => c.path == k) with
         | some c => if c.type = .removed then none else some (changeValue c)
         | none => assocGet g k) := by
  intro cs
  induction cs with
  | nil =>
      intro g _ _
      exact ⟨g, rfl, fun k => by simp⟩
  | cons c rest ihc =>
      intro g hsplit hnd
      simp only [List.map_cons, List.nodup_cons] at hnd
      have hks : keySplit c.path = [c.path] := hsplit c (by simp)
      rw [applyChanges_cons, hks, applyChangesStep_single]
      by_cases hrem : c.type = .removed
      · rw [if_pos hrem]
        have hstep : removeKeyStr (vobj g) c.path = .ok (vobj (assocRemove g c.path)) := rfl
        rw [hstep, except_bind_ok2]
        obtain ⟨gs, hgs, hget⟩ := ihc (assocRemove g c.path)
          (fun c2 h2 => hsplit c2 (by simp [h2])) hnd.2
        refine ⟨gs, hgs, ?_⟩
        intro k
        rw [hget k]
        by_cases hk : c.path = k
        · subst hk
          have hnone : rest.find? (fun c2 => c2.path == c.path) = none := by
            rw [List.find?_eq_none]
            intro c2 h2 hbeq
            have hc : c2.path = c.path := by simpa using hbeq
            exact hnd.1 (hc ▸ List.mem_map_of_mem Change.path h2)
          rw [hnone, List.find?_cons_of_pos _ (by simp)]
          simp [hrem, assocGet_assocRemove_self]
        · rw [List.find?_cons_of_neg _ (by simp [hk])]
          cases hfind : rest.find? (fun c2 => c2.path == k)
          · exact assocGet_assocRemove_other g c.path k (Ne.symm hk)
          · rfl
      · rw [if_neg hrem]
        have hstep : setKeyStrE (vobj g) c.path (changeValue c)
            = .ok (vobj (assocSet g c.path (changeValue c))) := rfl
        rw [hstep, except_bind_ok2]
        obtain ⟨gs, hgs, hget⟩ := ihc (assocSet g c.path (changeValue c))
          (fun c2 h2 => hsplit c2 (by simp [h2])) hnd.2
        refine ⟨gs, hgs, ?_⟩
        intro k
        rw [hget k]
        by_cases hk : c.path = k
        · subst hk
          have hnone : rest.find? (fun c2 => c2.path == c.path) = none := by
            rw [List.find?_eq_none]
            intro c2 h2 hbeq
            have hc : c2.path = c.path := by simpa using hbeq
            exact hnd.1 (hc ▸ List.mem_map_of_mem Change.path h2)
          rw [hnone, List.find?_cons_of_pos _ (by simp)]
          simp [hrem, assocGet_assocSet_self]
        · rw [List.find?_cons_of_neg _ (by simp [hk])]
          cases hfind : rest.find? (fun c2 => c2.path == k)
          · exact assocGet_assocSet_other g c.path k (changeValue c) (Ne.symm hk)
          · rfl

theorem find_filterMap_paths (l : List String) (F : String → Option Change)
    (hF : ∀ p c, F p = some c → c.path = p) (hnd : l.Nodup) (k : String) :
    (l.filterMap F).find? (fun c => c.path == k) = if k ∈ l then F k else none := by
  induction l with
  | nil => simp
  | cons p rest ih =>
      simp only [List.nodup_cons] at hnd
      rw [List.filterMap_cons]
      cases hFp : F p with
      | none =>
          rw [ih hnd.2]
          by_cases hk : k = p
          · subst hk
            simp [hnd.1, hFp]
          · simp [hk]
      | some c =>
          have hcp : c.path = p := hF p c hFp
          by_cases hk : k = p
          · subst hk
            rw [List.find?_cons_of_pos _ (by simp [hcp]), if_pos (by simp), hFp]
          · rw [List.find?_cons_of_neg _ (by simp [hcp, Ne.symm hk]), ih hnd.2]
            simp [hk]

theorem find_map_invert (l : List Change) (k : String) :
    (l.map invertChange).find? (fun c => c.path == k)
      = (l.find? (fun c => c.path == k)).map invertChange := by
  induction l with
  | nil => rfl
  | cons c rest ih =>
      rw [List.map_cons]
      by_cases h : (c.path == k) = true
      · have ha : List.find? (fun c2 => c2.path == k)
            (invertChange c :: List.map invertChange rest) = some (invertChange c) :=
          List.find?_cons_of_pos _ (by rw [invertChange_path]; exact h)
        have hb : List.find? (fun c2 => c2.path == k) (c :: rest) = some c :=
          List.find?_cons_of_pos _ h
        rw [ha, hb]
        rfl
      · have ha : List.find? (fun c2 => c2.path == k)
            (invertChange c :: List.map invertChange rest)
            = List.find? (fun c2 => c2.path == k) (List.map invertChange rest) :=
          List.find?_cons_of_neg _ (by rw [invertChange_path]; simpa using h)
        have hb : List.find? (fun c2 => c2.path == k) (c :: rest)
            = List.find? (fun c2 => c2.path == k) rest :=
          List.find?_cons_of_neg _ (by simpa using h)
        rw [ha, hb]
        exact ih

/-- The per-path classifier inside `watch`, named for reuse: given the two
path maps it emits the added/removed/modified record (or nothing) for one
dotPath. -/
def watchF (om nm : List (String × JVal)) (options : WatchOptions) (p : String) :
    Option Change :=
  match assocGet om p, assocGet nm p with
  | none, some nv => some { type := .added, path := p, value := some nv }
  | some ov, none => some { type := .removed, path := p, oldValue := some ov }
  | some ov, some nv =>
      if valueDiffers options ov nv then
        some { type := .modified, path := p, oldValue := some ov, newValue := some nv }
      else none
  | none, none => none

theorem watch_as_filterMap (oldE newE : List Entry) (opts : WatchOptions) :
    watch oldE newE opts
      = (dedupFirst (((toMap oldE).map Prod.fst) ++ ((toMap newE).map Prod.fst))).filterMap
          (watchF (toMap oldE) (toMap newE) opts) := rfl

theorem watchF_path (om nm : List (String × JVal)) (opts : WatchOptions) (p : String)
    (c : Change) (h : watchF om nm opts p = some c) : c.path = p := by
  rw [watchF] at h
  cases ho : assocGet om p <;> cases hn : assocGet nm p <;> simp only [ho, hn] at h
  case none.none => cases h
  case none.some nv =>
      injection h with h2
      rw [← h2]
  case some.none ov =>
      injection h with h2
      rw [← h2]
  case some.some ov nv =>
      by_cases hd : valueDiffers opts ov nv = true
      · rw [if_pos hd] at h
        injection h with h2
        rw [← h2]
      · rw [if_neg hd] at h
        cases h

theorem filterMap_path_sublist (l : List String) (F : String → Option Change)
    (hF : ∀ p c, F p = some c → c.path = p) :
    ((l.filterMap F).map Change.path).Sublist l := by
  induction l with
  | nil => simp
  | cons p rest ih =>
      rw [List.filterMap_cons]
      cases hFp : F p with
      | none => exact ih.cons p
      | some c =>
          rw [List.map_cons, hF p c hFp]
          exact ih.cons₂ p

theorem changeValue_added_leaf (p : String) (ov : JVal) (h : ov ≠ vnull) :
    changeValue { type := .added, path := p, value := some ov } = ov := by
  cases ov
  case vnull => exact absurd rfl h
  all_goals rfl

theorem bind_ok3 {α β : Type} (x : α) (f : α → Except String β) :
    (Except.ok x >>= f) = f x := rfl

theorem revertChanges_run (s : State) (diff : List Change) (r t : JVal)
    (h1 : rebuild s.entries = .ok r)
    (h2 : applyChanges r (diff.map invertChange) = .ok t) :
    revertChanges s diff = .ok { s with entries := flatten t } := by
  rw [revertChanges, h1, bind_ok3, h2, bind_ok3]
  rfl

/-- C3: the diff/revert inverse law holds in the amended form: for flat
plain objects with duplicate-free dot-free keys and scalar values, none of
them `null` on the original side, and a diff taken under
`strictTypes: true`, `revertChanges(watch(flatten(original), entries))`
applied to the current state succeeds and restores exactly the original's
key bindings (the same dotPath-to-value content; field order follows the
revert writes, which deep equality does not observe). The unamended claim
fails for `null` old values — `change.value ?? change.newValue` coalesces
the restored `null` to `undefined` — and under the default coercing
comparison, which drops type-only changes from the diff. -/
theorem C3_revert_inverse_amended (ofs cfs : List (String × JVal)) (orig : JVal)
    (hleafO : ∀ kv ∈ ofs, isCont kv.2 = false ∧ kv.2 ≠ vhole ∧ kv.2 ≠ vnull)
    (hleafC : ∀ kv ∈ cfs, isCont kv.2 = false ∧ kv.2 ≠ vhole)
    (hndO : (ofs.map Prod.fst).Nodup)
    (hndC : (cfs.map Prod.fst).Nodup)
    (hdotO : ∀ kv ∈ ofs, keySplit kv.1 = [kv.1])
    (hdotC : ∀ kv ∈ cfs, keySplit kv.1 = [kv.1]) :
    ∃ gs, revertChanges ⟨orig, flatten (vobj cfs)⟩
        (watch (flatten (vobj ofs)) (flatten (vobj cfs)) ⟨false, true⟩)
      = .ok ⟨orig, flatten (vobj gs)⟩
      ∧ ∀ k, assocGet gs k = assocGet ofs k := by
  have hO1 : ∀ kv ∈ ofs, isCont kv.2 = false := fun kv h => (hleafO kv h).1
  have hC1 : ∀ kv ∈ cfs, isCont kv.2 = false := fun kv h => (hleafC kv h).1
  have hOld : toMap (flatten (vobj ofs)) = ofs.reverse := toMap_flatten_flat ofs hO1 hndO
  have hNew : toMap (flatten (vobj cfs)) = cfs.reverse := toMap_flatten_flat cfs hC1 hndC
  have hW : watch (flatten (vobj ofs)) (flatten (vobj cfs)) ⟨false, true⟩
      = (dedupFirst ((ofs.reverse.map Prod.fst) ++ (cfs.reverse.map Prod.fst))).filterMap
          (watchF ofs.reverse cfs.reverse ⟨false, true⟩) := by
    rw [watch_as_filterMap, hOld, hNew]
  have hFpath := watchF_path ofs.reverse cfs.reverse (⟨false, true⟩ : WatchOptions)
  have hreb : rebuild (flatten (vobj cfs)) = .ok (vobj cfs.reverse) :=
    rebuild_flat cfs hC1 hndC
  set ps := dedupFirst ((ofs.reverse.map Prod.fst) ++ (cfs.reverse.map Prod.fst)) with hps
  set W := ps.filterMap (watchF ofs.reverse cfs.reverse ⟨false, true⟩) with hWdef
  have hndps : ps.Nodup := dedupFirst_nodup _
  have hWpathsNodup : ((W.map invertChange).map Change.path).Nodup := by
    rw [List.map_map]
    have he : (Change.path ∘ invertChange) = Change.path := funext invertChange_path
    rw [he, hWdef]
    exact (filterMap_path_sublist ps _ hFpath).nodup hndps
  have hWsplit : ∀ c2 ∈ W.map invertChange, keySplit c2.path = [c2.path] := by
    intro c2 h2
    obtain ⟨c, hc, hceq⟩ := List.mem_map.mp h2
    rw [← hceq, invertChange_path]
    rw [hWdef] at hc
    obtain ⟨p, hp, hF⟩ := List.mem_filterMap.mp hc
    rw [hFpath p c hF]
    have hp2 : p ∈ (ofs.reverse.map Prod.fst) ++ (cfs.reverse.map Prod.fst) :=
      (dedupFirst_mem _ _).mp hp
    rcases List.mem_append.mp hp2 with h3 | h3
    · rw [List.map_reverse, List.mem_reverse] at h3
      obtain ⟨kv, hkv, hkeq⟩ := List.mem_map.mp h3
      rw [← hkeq]
      exact hdotO kv hkv
    · rw [List.map_reverse, List.mem_reverse] at h3
      obtain ⟨kv, hkv, hkeq⟩ := List.mem_map.mp h3
      rw [← hkeq]
      exact hdotC kv hkv
  obtain ⟨gs, hgs, hget⟩ :=
    applyChanges_flat (W.map invertChange) cfs.reverse hWsplit hWpathsNodup
  refine ⟨gs, ?_, ?_⟩
  · rw [hW]
    exact revertChanges_run ⟨orig, flatten (vobj cfs)⟩ W (vobj cfs.reverse) (vobj gs)
      hreb hgs
  · intro k
    rw [hget k, find_map_invert, hWdef, find_filterMap_paths ps _ hFpath hndps k]
    by_cases hmem : k ∈ ps
    · rw [if_pos hmem]
      rw [watchF, assocGet_reverse ofs hndO k, assocGet_reverse cfs hndC k]
      cases ho : assocGet ofs k with
      | none =>
          cases hc : assocGet cfs k with
          | none =>
              exfalso
              have hp2 : k ∈ (ofs.reverse.map Prod.fst) ++ (cfs.reverse.map Prod.fst) :=
                (dedupFirst_mem _ _).mp hmem
              rcases List.mem_append.mp hp2 with h3 | h3
              · rw [List.map_reverse, List.mem_reverse] at h3
                exact (assocGet_ne_none_iff ofs k).mpr h3 ho
              · rw [List.map_reverse, List.mem_reverse] at h3
                exact (assocGet_ne_none_iff cfs k).mpr h3 hc
          | some cv =>
              simp [ho, hc, invertChange]
      | some ov =>
          have hovmem : (k, ov) ∈ ofs := assocGet_some_mem _ _ _ ho
          have hovleaf := hleafO _ hovmem
          cases hc : assocGet cfs k with
          | none =>
              simp [ho, hc, invertChange]
              rw [changeValue_added_leaf k ov hovleaf.2.2]
          | some cv =>
              have hcvmem : (k, cv) ∈ cfs := assocGet_some_mem _ _ _ hc
              have hcvleaf := hleafC _ hcvmem
              by_cases hdiff : valueDiffers ⟨false, true⟩ ov cv = true
              · simp [ho, hc, hdiff, invertChange, changeValue]
              · have hsv : strictEq ov cv = true := by
                  simpa [valueDiffers] using hdiff
                have hovcv : ov = cv :=
                  strictEq_leaf_eq ov cv hovleaf.1 hovleaf.2.1 hcvleaf.1 hcvleaf.2 hsv
                subst hovcv
                have hdiff2 : valueDiffers ⟨false, true⟩ ov ov = false := by
                  cases hvd : valueDiffers ⟨false, true⟩ ov ov
                  · rfl
                  · exact absurd hvd hdiff
                simp [ho, hc, hdiff2]
    · rw [if_neg hmem]
      have hko : assocGet ofs k = none := by
        rw [assocGet_eq_none_iff]
        cases hh : assocHas ofs k
        · rfl
        · exfalso
          apply hmem
          rw [hps, dedupFirst_mem]
          apply List.mem_append.mpr
          left
          rw [List.map_reverse, List.mem_reverse]
          exact (assocHas_iff_mem _ _).mp hh
      have hkc : assocGet cfs k = none := by
        rw [assocGet_eq_none_iff]
        cases hh : assocHas cfs k
        · rfl
        · exfalso
          apply hmem
          rw [hps, dedupFirst_mem]
          apply List.mem_append.mpr
          right
          rw [List.map_reverse, List.mem_reverse]
          exact (assocHas_iff_mem _ _).mp hh
      simp [hko, assocGet_reverse cfs hndC, hkc]

/-- C3 counterexample: the diff/revert inverse law fails when a removed
change's oldValue is `null` — the write-back `change.value ?? change.newValue`
coalesces the null away and restores `undefined` instead — and it fails
already at the diff stage under the default coercing comparison, which sees
no difference between `1` and `"1"`. -/
theorem C3_counterexample :
    watch (flatten (vobj [("a", vnull)])) (flatten (vobj [("b", vint 1)])) {}
      = [{ type := .removed, path := "a", oldValue := some vnull },
         { type := .added, path := "b", value := some (vint 1) }]
    ∧ revertChanges ⟨vobj [("a", vnull)], flatten (vobj [("b", vint 1)])⟩
        (watch (flatten (vobj [("a", vnull)])) (flatten (vobj [("b", vint 1)])) {})
      = .ok ⟨vobj [("a", vnull)], flatten (vobj [("a", vundef)])⟩
    ∧ flatten (vobj [("a", vundef)]) ≠ flatten (vobj [("a", vnull)])
    ∧ structEq (vobj [("a", vundef)]) (vobj [("a", vnull)]) = false
    ∧ watch (flatten (vobj [("a", vint 1)])) (flatten (vobj [("a", vstr "1")])) {} = []
    ∧ structEq (vobj [("a", vstr "1")]) (vobj [("a", vint 1)]) = false := by
  have hfa : flatten (vobj [("a", vnull)])
      = [⟨[Step.fld "a"], "a", vnull, some "object"⟩] := by
    simp [flatten, flattenAux, dotPathOf, dotJoin, stepStr, jsTypeof]
  have hfb : flatten (vobj [("b", vint 1)])
      = [⟨[Step.fld "b"], "b", vint 1, some "number"⟩] := by
    simp [flatten, flattenAux, dotPathOf, dotJoin, stepStr, jsTypeof]
  have hfu : flatten (vobj [("a", vundef)])
      = [⟨[Step.fld "a"], "a", vundef, some "undefined"⟩] := by
    simp [flatten, flattenAux, dotPathOf, dotJoin, stepStr, jsTypeof]
  have hf1 : flatten (vobj [("a", vint 1)])
      = [⟨[Step.fld "a"], "a", vint 1, some "number"⟩] := by
    simp [flatten, flattenAux, dotPathOf, dotJoin, stepStr, jsTypeof]
  have hfs : flatten (vobj [("a", vstr "1")])
      = [⟨[Step.fld "a"], "a", vstr "1", some "string"⟩] := by
    simp [flatten, flattenAux, dotPathOf, dotJoin, stepStr, jsTypeof]
  have hwatch : watch (flatten (vobj [("a", vnull)])) (flatten (vobj [("b", vint 1)])) {}
      = [{ type := .removed, path := "a", oldValue := some vnull },
         { type := .added, path := "b", value := some (vint 1) }] := by
    rw [hfa, hfb]
    simp +decide [watch, toMap, assocSet, assocHas, assocGet, dedupFirst, List.filterMap]
  refine ⟨hwatch, ?_, ?_, ?_, ?_, ?_⟩
  · rw [hwatch]
    have hreb : rebuild (flatten (vobj [("b", vint 1)])) = .ok (vobj [("b", vint 1)]) := by
      rw [hfb]
      simp +decide [rebuild, List.foldlM, pure, Except.pure, Bind.bind, Except.bind,
        setPath, setKey, assocSet, assocHas, stepStr]
    have happ : applyChanges (vobj [("b", vint 1)])
        (([{ type := ChangeType.removed, path := "a", oldValue := some vnull },
           { type := ChangeType.added, path := "b", value := some (vint 1) }]).map
          invertChange)
        = .ok (vobj [("a", vundef)]) := by
      simp +decide [invertChange, applyChanges, List.foldlM, applyChangesStep, keySplit,
        splitDotsAux, changeValue, setKeyStrE, removeKeyStr, assocSet, assocHas,
        assocRemove, pure, Except.pure, Bind.bind, Except.bind]
    rw [revertChanges_run ⟨vobj [("a", vnull)], flatten (vobj [("b", vint 1)])⟩ _
      (vobj [("b", vint 1)]) (vobj [("a", vundef)]) hreb happ]
  · rw [hfu, hfa]
    intro h
    simp at h
  · simp +decide [structEq, structEqF, assocGet]
  · rw [hf1, hfs]
    simp +decide [watch, toMap, assocSet, assocHas, assocGet, dedupFirst, List.filterMap,
      valueDiffers, looseEq, loosePrim, numParse]
  · simp +decide [structEq, structEqF, assocGet]

/-- Witness for C3 at concrete flat objects: the original binds a to 1 and
b to 2, the current state binds a to 3 and c to true; reverting the
strict-type diff restores exactly the original bindings. -/
theorem C3_revert_inverse_amended_witness :
    (∀ kv ∈ [("a", vint 1), ("b", vint 2)],
        isCont kv.2 = false ∧ kv.2 ≠ vhole ∧ kv.2 ≠ vnull)
    ∧ (∀ kv ∈ [("a", vint 3), ("c", vbool true)], isCont kv.2 = false ∧ kv.2 ≠ vhole)
    ∧ (([("a", vint 1), ("b", vint 2)].map Prod.fst).Nodup)
    ∧ (([("a", vint 3), ("c", vbool true)].map Prod.fst).Nodup)
    ∧ (∀ kv ∈ [("a", vint 1), ("b", vint 2)], keySplit kv.1 = [kv.1])
    ∧ (∀ kv ∈ [("a", vint 3), ("c", vbool true)], keySplit kv.1 = [kv.1])
    ∧ ∃ gs, revertChanges ⟨vundef, flatten (vobj [("a", vint 3), ("c", vbool true)])⟩
        (watch (flatten (vobj [("a", vint 1), ("b", vint 2)]))
          (flatten (vobj [("a", vint 3), ("c", vbool true)])) ⟨false, true⟩)
      = .ok ⟨vundef, flatten (vobj gs)⟩
      ∧ ∀ k, assocGet gs k = assocGet [("a", vint 1), ("b", vint 2)] k :=
  ⟨by simp [isCont], by simp [isCont], by decide, by decide,
   by simp +decide [keySplit, splitDotsAux],
   by simp +decide [keySplit, splitDotsAux],
   C3_revert_inverse_amended [("a", vint 1), ("b", vint 2)]
     [("a", vint 3), ("c", vbool true)] vundef
     (by simp [isCont]) (by simp [isCont]) (by decide) (by decide)
     (by simp +decide [keySplit, splitDotsAux])
     (by simp +decide [keySplit, splitDotsAux])⟩

/-- The coercing comparison reads the integer-valued `ToNumber` forms:
`100 == "1e2"`, `1 == "1.0"`, `16 == "0x10"` and `0 == ""` hold, a
non-integer numeral equals no integer, and the default-options diff of
`\x7bp: 100\x7d` against `\x7bp: "1e2"\x7d` is accordingly empty. -/
theorem looseEq_toNumber_forms :
    looseEq (vint 100) (vstr "1e2") = true
    ∧ looseEq (vint 1) (vstr "1.0") = true
    ∧ looseEq (vint 16) (vstr "0x10") = true
    ∧ looseEq (vint 0) (vstr "") = true
    ∧ looseEq (vint 100) (vstr " 1e2 ") = true
    ∧ looseEq (vint 1) (vstr "1.5") = false
    ∧ watch (flatten (vobj [("p", vint 100)])) (flatten (vobj [("p", vstr "1e2")])) {}
      = [] := by
  refine ⟨by decide, by decide, by decide, by decide, by decide, by decide, ?_⟩
  have hfo : flatten (vobj [("p", vint 100)])
      = [⟨[Step.fld "p"], "p", vint 100, some "number"⟩] := by
    simp [flatten, flattenAux, dotPathOf, dotJoin, stepStr, jsTypeof]
  have hfn : flatten (vobj [("p", vstr "1e2")])
      = [⟨[Step.fld "p"], "p", vstr "1e2", some "string"⟩] := by
    simp [flatten, flattenAux, dotPathOf, dotJoin, stepStr, jsTypeof]
  rw [hfo, hfn]
  simp +decide [watch, toMap, assocSet, assocHas, assocGet, dedupFirst, List.filterMap,
    valueDiffers]

/-- C1 counterexample: the claimed round-trip law includes values with
empty containers as members and arrays at the root, and both fail.
`flatten` emits no entry for an empty object member, so
`rebuild(flatten({a: \x7b\x7d}))` is `{}`, not structurally equal to the
input; and `rebuild` always roots an object, so an array root `[1]`
comes back as the object `{"0": 1}`. -/
theorem C1_counterexample :
    rebuild (flatten (vobj [("a", vobj [])])) = .ok (vobj [])
    ∧ structEq (vobj []) (vobj [("a", vobj [])]) = false
    ∧ rebuild (flatten (varr [vint 1])) = .ok (vobj [("0", vint 1)])
    ∧ structEq (vobj [("0", vint 1)]) (varr [vint 1]) = false := by
  refine ⟨?_, ?_, ?_, ?_⟩
  · simp [flatten, flattenAux, rebuild, List.foldlM, pure, Except.pure]
  · simp [structEq]
  · simp +decide [flatten, flattenAux, rebuild, List.foldlM, pure, Except.pure, Bind.bind,
      Except.bind, setPath, setKey, assocSet, assocHas, stepStr, natToString, natDigits,
      natDigitsAux, digitChar, dotPathOf, dotJoin, jsTypeof, isHole]
  · simp [structEq]

/-- C1: the round-trip law `rebuild(flatten(v))` structurally equal to `v`
holds in the amended form: for every value whose root is a plain object and
whose containers are all non-empty, hole-free and duplicate-key-free,
`rebuild(flatten(v))` succeeds and yields a value structurally equal to `v`
(deep equality; field insertion order, which the LIFO traversal reverses at
every object level, is not observable to structural equality). Values with
empty containers as members and array roots are genuine exceptions. -/
theorem C1_round_trip_amended (fields : List (String × JVal))
    (hgood : goodVal (vobj fields) = true) :
    ∃ ws, rebuild (flatten (vobj fields)) = .ok (vobj ws)
      ∧ structEq (vobj ws) (vobj fields) = true := by
  obtain ⟨ws, h1, h2⟩ := rebuild_flatten_good_obj fields hgood
  exact ⟨ws, h1, SimRev_structEq (jsize (vobj fields)) (vobj fields) (vobj ws) le_rfl hgood h2⟩

/-- Witness for C1 at a concrete nested value mixing objects, arrays and
scalars. -/
theorem C1_round_trip_amended_witness :
    goodVal (vobj [("a", vint 1), ("b", vobj [("c", vstr "x")]),
        ("d", varr [vint 2, vnull])]) = true
    ∧ ∃ ws, rebuild (flatten (vobj [("a", vint 1), ("b", vobj [("c", vstr "x")]),
        ("d", varr [vint 2, vnull])])) = .ok (vobj ws)
      ∧ structEq (vobj ws) (vobj [("a", vint 1), ("b", vobj [("c", vstr "x")]),
          ("d", varr [vint 2, vnull])]) = true :=
  ⟨by simp +decide [goodVal, goodF, goodL, nodupKeys],
    C1_round_trip_amended _ (by simp +decide [goodVal, goodF, goodL, nodupKeys])⟩

end MithrilSync
